import Mathlib

/-
Verification of the operator-construction and decoding pipeline of the
quantum-protein-folding repository.

The Python code manipulates qiskit `SparsePauliOp` values: a list of terms,
each a pair of equal-length Boolean masks (Z bits, X bits) together with a
scalar coefficient.  Here the operator algebra is embedded shallowly:

  * a term is a `PauliTerm` (Z mask, X mask, coefficient); the term denotes
    the coefficient times `Z^z * X^x` with qiskit's group phase folded into
    the coefficient.  All operators built by this repository have rational
    coefficients, so coefficients are modelled as exact rationals (the
    code's floating epsilon tests become exact-zero tests);
  * an operator is a `SparsePauliOp`: a declared qubit count plus a term
    list, exactly as in qiskit's symplectic representation;
  * `simplify` groups terms with identical masks in first-occurrence order,
    sums their coefficients, drops the zero groups, and returns the
    all-zero identity term when everything cancels - mirroring qiskit's
    `SparsePauliOp.simplify` (whose exact output order is
    implementation-defined; every statement below is either insensitive to
    that order or compares two runs of the same canonicalisation).
-/

namespace QPF

/-- One Pauli term of a sparse operator: Z bit mask, X bit mask and the
scalar coefficient, mirroring a row of qiskit's symplectic tables. -/
structure PauliTerm where
  z : List Bool
  x : List Bool
  c : ℚ
deriving DecidableEq

/-- A sparse Pauli operator: qubit count and list of terms, as in qiskit's
`SparsePauliOp`. -/
structure SparsePauliOp where
  numQubits : ℕ
  terms : List PauliTerm
deriving DecidableEq

/-- All-false bit mask of the given width. -/
def zeros (n : ℕ) : List Bool :=
  List.replicate n false

/-- Bit mask of width `n` with a bit set at each index in `js`, as built by
qiskit `from_sparse_list` for a Z (or X) column set. -/
def zMask (n : ℕ) (js : List ℕ) : List Bool :=
  (List.range n).map (fun k => js.contains k)

/-- Python constant `NORM_FACTOR = 0.5` from constants.py. -/
def NORM_FACTOR : ℚ := 1 / 2

/-- Python constant `MAIN_CHAIN_FIXED_POSITIONS = [0, 1, 2, 3, 5]` from
constants.py (note that it already contains 5). -/
def MAIN_CHAIN_FIXED_POSITIONS : List ℕ := [0, 1, 2, 3, 5]

/-- Python constant `MAIN_CHAIN_FIFTH_FIXED_POSITION = 5` from constants.py. -/
def MAIN_CHAIN_FIFTH_FIXED_POSITION : ℕ := 5

/-- Python constant `SIGN_FLIP_SECOND_QUBIT_INDEX = 1` from constants.py. -/
def SIGN_FLIP_SECOND_QUBIT_INDEX : ℕ := 1

/-- Python constant `SIGN_FLIP_SIXTH_QUBIT_INDEX = 5` from constants.py. -/
def SIGN_FLIP_SIXTH_QUBIT_INDEX : ℕ := 5

/-- Python constant `MIN_DISTANCE_BETWEEN_CONTACTS = 5` from constants.py. -/
def MIN_DISTANCE_BETWEEN_CONTACTS : ℕ := 5

/-- Scalar multiplication of a `SparsePauliOp` (qiskit `coeff * op`). -/
def scalarMul (s : ℚ) (op : SparsePauliOp) : SparsePauliOp :=
  ⟨op.numQubits, op.terms.map (fun t => ⟨t.z, t.x, s * t.c⟩)⟩

/-- Sum of two operators: qiskit concatenates the term lists (no implicit
simplification). -/
def addOp (a b : SparsePauliOp) : SparsePauliOp :=
  ⟨a.numQubits, a.terms ++ b.terms⟩

/-- Difference of two operators, `a + (-1) * b` as evaluated by qiskit. -/
def subOp (a b : SparsePauliOp) : SparsePauliOp :=
  addOp a (scalarMul (-1) b)

/-- Product of two Pauli terms.  With each term denoting `c * Z^z * X^x`,
the commutation rule `X^x * Z^z = (-1)^(x.z) * Z^z * X^x` gives the mask
xor and the sign below; no further phase arises because the group phase is
already folded into the coefficients. -/
def mulTerm (t u : PauliTerm) : PauliTerm :=
  ⟨List.zipWith xor t.z u.z, List.zipWith xor t.x u.x,
    (if (List.zipWith and t.x u.z).count true % 2 = 1 then -1 else 1) * (t.c * u.c)⟩

/-- Operator product (qiskit matrix product of sparse Pauli operators): all
pairwise term products, left operand outermost. -/
def composeOp (a b : SparsePauliOp) : SparsePauliOp :=
  ⟨a.numQubits, a.terms.flatMap (fun t => b.terms.map (fun u => mulTerm t u))⟩

/-- Insert one term into a list of coefficient groups: if a group with the
same (Z, X) masks exists its coefficient is increased, otherwise the term
is appended.  This is the grouping step of qiskit `simplify`. -/
def addIntoGroups : List PauliTerm → PauliTerm → List PauliTerm
  | [], t => [t]
  | u :: rest, t =>
      if u.z = t.z ∧ u.x = t.x then ⟨u.z, u.x, u.c + t.c⟩ :: rest
      else u :: addIntoGroups rest t

/-- Group a term list by identical (Z, X) masks, summing coefficients, and
drop the groups whose total coefficient is zero. -/
def simplifyTerms (l : List PauliTerm) : List PauliTerm :=
  (l.foldl addIntoGroups []).filter (fun t => t.c ≠ 0)

/-- Canonical representation of the zero operator produced by qiskit
`simplify` when every coefficient cancels: a single identity term with
coefficient 0. -/
def zeroTerm (n : ℕ) : PauliTerm :=
  ⟨zeros n, zeros n, 0⟩

/-- qiskit `SparsePauliOp.simplify`: canonicalise the term list; when all
groups cancel, return the single zero-coefficient identity term. -/
def simplifyOp (op : SparsePauliOp) : SparsePauliOp :=
  let nz := simplifyTerms op.terms
  if nz.isEmpty then ⟨op.numQubits, [zeroTerm op.numQubits]⟩ else ⟨op.numQubits, nz⟩

/-- Python `build_identity_op` (qubit_utils.py): full identity with a
coefficient. -/
def build_identity_op (numQubits : ℕ) (coeff : ℚ := 1) : SparsePauliOp :=
  ⟨numQubits, [⟨zeros numQubits, zeros numQubits, coeff⟩]⟩

/-- Python `build_turn_qubit` (qubit_utils.py): the single-Z operator on
the given wire. -/
def zOnWire (zIndex : ℕ) (numQubits : ℕ) : SparsePauliOp :=
  ⟨numQubits, [⟨zMask numQubits [zIndex], zeros numQubits, 1⟩]⟩

/-- Python `build_turn_qubit` (qubit_utils.py):
`NORM_FACTOR * (full_identity - z_operator)`. -/
def build_turn_qubit (zIndex : ℕ) (numQubits : ℕ) : SparsePauliOp :=
  scalarMul NORM_FACTOR (subOp (build_identity_op numQubits) (zOnWire zIndex numQubits))

/-- Python `build_pauli_z_operator` (qubit_utils.py): Z at each index of
the set, identity elsewhere (one term).  The argument models the sorted
index set. -/
def build_pauli_z_operator (numQubits : ℕ) (pauliZIndices : List ℕ) : SparsePauliOp :=
  if pauliZIndices.isEmpty then ⟨numQubits, [⟨zeros numQubits, zeros numQubits, 1⟩]⟩
  else ⟨numQubits, [⟨zMask numQubits pauliZIndices, zeros numQubits, 1⟩]⟩

/-- Python `convert_to_qubits` (qubit_utils.py):
`NORM_FACTOR * (full_identity - pauli_op)`. -/
def convert_to_qubits (pauliOp : SparsePauliOp) : SparsePauliOp :=
  scalarMul NORM_FACTOR (subOp (build_identity_op pauliOp.numQubits) pauliOp)

/-- Python `_preset_single_binary_val` (qubit_utils.py): set the Z bit at
`index` to False when that index exists. -/
def preset_single_binary_val (tableZ : List Bool) (index : ℕ) : List Bool :=
  if index < tableZ.length then tableZ.set index false else tableZ

/-- Python `_preset_binary_vals` (qubit_utils.py): clear the Z bits at the
`MAIN_CHAIN_FIXED_POSITIONS`, appending position 5 once more when there is
no side bead at the second relevant bead.  Because the constant list
already contains 5, position 5 is cleared for both flag values. -/
def preset_binary_vals (tableZ : List Bool) (hasSideChainSecondBead : Bool) : List Bool :=
  (MAIN_CHAIN_FIXED_POSITIONS ++
    (if hasSideChainSecondBead then [] else [MAIN_CHAIN_FIFTH_FIXED_POSITION])).foldl
    preset_single_binary_val tableZ

/-- Python `_calc_updated_coeffs` (qubit_utils.py): negate the coefficient
when Z bit 1 is set (and the term is longer than 1), and again when the
flag is off, the term is longer than 6 and Z bit 5 is set. -/
def calc_updated_coeffs (tableZ : List Bool) (coeff : ℚ)
    (hasSideChainSecondBead : Bool) : ℚ :=
  let c1 :=
    if SIGN_FLIP_SECOND_QUBIT_INDEX < tableZ.length ∧
        tableZ.getD SIGN_FLIP_SECOND_QUBIT_INDEX false = true then
      -coeff
    else coeff
  if hasSideChainSecondBead = false ∧
      (SIGN_FLIP_SIXTH_QUBIT_INDEX + 1 < tableZ.length ∧
        tableZ.getD SIGN_FLIP_SIXTH_QUBIT_INDEX false = true) then
    -c1
  else c1

/-- Python `fix_qubits` (qubit_utils.py).  A single-term operator takes the
shortcut that only clears the fixed Z bits; a multi-term operator also
applies the coefficient sign rules.  Both branches end in `simplify`. -/
def fix_qubits (operator : SparsePauliOp) (hasSideChainSecondBead : Bool := false) :
    SparsePauliOp :=
  if operator.terms.length = 1 then
    simplifyOp ⟨operator.numQubits,
      operator.terms.map (fun t =>
        ⟨preset_binary_vals t.z hasSideChainSecondBead, t.x, t.c⟩)⟩
  else
    simplifyOp ⟨operator.numQubits,
      operator.terms.map (fun t =>
        ⟨preset_binary_vals t.z hasSideChainSecondBead, t.x,
          calc_updated_coeffs t.z t.c hasSideChainSecondBead⟩)⟩

/-- Python `find_unused_qubits` (qubit_utils.py).  The source computes
`used_mask = np.any(op.paulis.z, axis=0)` - it inspects only the Z table
and never the X table - and returns the indices whose column is all
False. -/
def find_unused_qubits (op : SparsePauliOp) : List ℕ :=
  if op.numQubits = 0 ∨ op.terms.length = 0 then []
  else (List.range op.numQubits).filter
    (fun i => ¬ op.terms.any (fun t => t.z.getD i false))

example :
    build_turn_qubit 1 3 =
      ⟨3, [⟨[false, false, false], [false, false, false], 1 / 2⟩,
           ⟨[false, true, false], [false, false, false], -(1 / 2)⟩]⟩ := by
  norm_num [build_turn_qubit, scalarMul, subOp, addOp, build_identity_op, zOnWire,
    NORM_FACTOR, zeros, zMask, List.range_succ, List.replicate_succ]

example :
    fix_qubits ⟨6, [⟨zMask 6 [1], zeros 6, 1⟩]⟩ false = build_identity_op 6 1 := by
  decide

example :
    find_unused_qubits ⟨2, [⟨zMask 2 [1], zeros 2, 1⟩]⟩ = [0] := by
  decide

/-- Python enum `ConformationEncoding` (enums.py): the value is the number
of qubits per turn (SPARSE = 4, DENSE = 2). -/
inductive ConformationEncoding where
  | sparse
  | dense
deriving DecidableEq

/-- Value of the `ConformationEncoding` member, which is also the
`QUBITS_PER_TURN` constant of constants.py. -/
def ConformationEncoding.qubitsPerTurn : ConformationEncoding → ℕ
  | .sparse => 4
  | .dense => 2

/-- Python enum `TurnDirection` (enums.py). -/
inductive TurnDirection where
  | DIR_0
  | DIR_1
  | DIR_2
  | DIR_3
deriving DecidableEq

/-- Numeric value of a `TurnDirection`. -/
def TurnDirection.val : TurnDirection → ℕ
  | .DIR_0 => 0
  | .DIR_1 => 1
  | .DIR_2 => 2
  | .DIR_3 => 3

/-- Python constants `SPARSE_TURN_INDICATORS` and `DENSE_TURN_INDICATORS`
(constants.py), with each indicator string modelled as its list of bits in
string order (character 0 first, `true` for the character 1). -/
def turnEncoding : ConformationEncoding → TurnDirection → List Bool
  | .sparse, .DIR_0 => [false, false, false, true]
  | .sparse, .DIR_1 => [false, false, true, false]
  | .sparse, .DIR_2 => [false, true, false, false]
  | .sparse, .DIR_3 => [true, false, false, false]
  | .dense, .DIR_0 => [false, false]
  | .dense, .DIR_1 => [false, true]
  | .dense, .DIR_2 => [true, false]
  | .dense, .DIR_3 => [true, true]

/-- Python constant `SIDE_CHAIN_FIFTH_POSITION_INDEX = 4` (constants.py). -/
def SIDE_CHAIN_FIFTH_POSITION_INDEX : ℕ := 4

/-- Python slice `s[-t:]` on a bit list: the last `t` elements, the whole
list when `t` is zero (python index `-0` is `0`) or exceeds the length. -/
def sliceFromEnd (l : List Bool) (t : ℕ) : List Bool :=
  if t = 0 then l else l.drop (l.length - t)

/-- Python `ResultInterpreter._get_target_sequence_length_main_chain`
(result_interpreter.py): `QUBITS_PER_TURN * (N - 3)`, minus one in dense
encoding when the fifth bead has no side chain. -/
def get_target_sequence_length_main_chain (mainChainLen : ℕ)
    (enc : ConformationEncoding) (fifthBeadHasNoSidechain : Bool) : ℕ :=
  let target := enc.qubitsPerTurn * (mainChainLen - 3)
  match enc with
  | .dense => target - (if fifthBeadHasNoSidechain then 1 else 0)
  | .sparse => target

/-- Python `ResultInterpreter._preprocess_bitstring` (result_interpreter.py):
slice the shape bits from the end of the raw bitstring, append the reversed
encodings of DIR_0 and DIR_1, in dense encoding insert the fixed bit 1 five
positions from the end when the fifth bead has no side chain, and finally
reverse the whole string. -/
def preprocess_bitstring (bitstring : List Bool) (mainChainLen : ℕ)
    (enc : ConformationEncoding) (fifthBeadHasNoSidechain : Bool) : List Bool :=
  let target := get_target_sequence_length_main_chain mainChainLen enc
    fifthBeadHasNoSidechain
  let r0 := sliceFromEnd bitstring target
  let r1 := r0 ++ (turnEncoding enc .DIR_0).reverse ++ (turnEncoding enc .DIR_1).reverse
  match enc with
  | .sparse => r1.reverse
  | .dense =>
      let r2 :=
        if fifthBeadHasNoSidechain then
          r1.take (r1.length - (SIDE_CHAIN_FIFTH_POSITION_INDEX + 1)) ++ [true] ++
            r1.drop (r1.length - (SIDE_CHAIN_FIFTH_POSITION_INDEX + 1))
        else r1
      r2.reverse

/-- Inverse lookup in the turn-indicator table, as built by
`_generate_turn_sequence`; an unknown group yields `none` (the python code
raises `ConformationEncodingError`). -/
def directionOfBits (enc : ConformationEncoding) (bits : List Bool) :
    Option TurnDirection :=
  if bits = turnEncoding enc .DIR_0 then some .DIR_0
  else if bits = turnEncoding enc .DIR_1 then some .DIR_1
  else if bits = turnEncoding enc .DIR_2 then some .DIR_2
  else if bits = turnEncoding enc .DIR_3 then some .DIR_3
  else none

/-- Chunks of `QUBITS_PER_TURN` bits taken from the processed bitstring,
`floor (length / QUBITS_PER_TURN)` many, as in `_generate_turn_sequence`. -/
def turnChunks (processed : List Bool) (enc : ConformationEncoding) :
    List (List Bool) :=
  (List.range (processed.length / enc.qubitsPerTurn)).map
    (fun i => (processed.drop (i * enc.qubitsPerTurn)).take enc.qubitsPerTurn)

/-- Python `ResultInterpreter._generate_turn_sequence`
(result_interpreter.py): split the processed bitstring into groups of
`QUBITS_PER_TURN` bits and decode each group through the inverted
indicator table. -/
def generate_turn_sequence (processed : List Bool) (enc : ConformationEncoding) :
    Option (List TurnDirection) :=
  (turnChunks processed enc).mapM (directionOfBits enc)

/-- Full turn-sequence decode of a raw measurement bitstring: preprocess
then decode, as run by the `ResultInterpreter` constructor. -/
def decode_turn_sequence (bitstring : List Bool) (mainChainLen : ℕ)
    (enc : ConformationEncoding) (fifthBeadHasNoSidechain : Bool) :
    Option (List TurnDirection) :=
  generate_turn_sequence
    (preprocess_bitstring bitstring mainChainLen enc fifthBeadHasNoSidechain) enc

example :
    get_target_sequence_length_main_chain 6 .dense true = 5 := by
  decide

example :
    decode_turn_sequence [true, false, true, true, false] 6 .dense true =
      some [.DIR_1, .DIR_0, .DIR_1, .DIR_3, .DIR_1] := by
  decide

/-- Integer numerators of the `FCC_BASIS` rows of constants.py.  The python
constant is `FCC_EDGE_LENGTH * [[-1,1,1],[1,1,-1],[-1,-1,-1],[1,-1,1]]`
with `FCC_EDGE_LENGTH = 1/sqrt 3`, and `_generate_3d_coordinates` divides
the basis by the norm of its first row, which is exactly 1; so the real
basis vectors are these integer triples divided by `sqrt 3`, each of real
norm 1.  Coordinates below carry the same global `1 / sqrt 3` factor. -/
def FCC_BASIS_NUM : TurnDirection → ℤ × ℤ × ℤ
  | .DIR_0 => (-1, 1, 1)
  | .DIR_1 => (1, 1, -1)
  | .DIR_2 => (-1, -1, -1)
  | .DIR_3 => (1, -1, 1)

/-- Componentwise sum of integer coordinate triples. -/
def addVec (a b : ℤ × ℤ × ℤ) : ℤ × ℤ × ℤ :=
  (a.1 + b.1, a.2.1 + b.2.1, a.2.2 + b.2.2)

/-- Componentwise scalar multiple of an integer coordinate triple. -/
def smulVec (s : ℤ) (a : ℤ × ℤ × ℤ) : ℤ × ℤ × ℤ :=
  (s * a.1, s * a.2.1, s * a.2.2)

/-- Squared euclidean norm of an integer coordinate triple. -/
def sqNorm (a : ℤ × ℤ × ℤ) : ℤ :=
  a.1 * a.1 + a.2.1 * a.2.1 + a.2.2 * a.2.2

/-- One step of the FCC walk of `_generate_3d_coordinates`: from position
`pos` at step index `i`, move by `(-1)^i` times the basis vector of the
turn. -/
def walkStep (pos : ℤ × ℤ × ℤ) (i : ℕ) (d : TurnDirection) : ℤ × ℤ × ℤ :=
  addVec pos (smulVec ((-1) ^ i) (FCC_BASIS_NUM d))

/-- Tail of the coordinate list: positions after each turn, starting from
`pos` at step index `i`. -/
def walkFrom (pos : ℤ × ℤ × ℤ) (i : ℕ) : List TurnDirection → List (ℤ × ℤ × ℤ)
  | [] => []
  | d :: ds =>
      let nxt := walkStep pos i d
      nxt :: walkFrom nxt (i + 1) ds

/-- Python `ResultInterpreter._generate_3d_coordinates`
(result_interpreter.py), in the `sqrt 3`-scaled integer lattice: the strict
zip with `main_chain_symbols[1:]` succeeds exactly when the number of
decoded turns is one less than the number of main-chain beads; the walk
then starts at the origin and adds `(-1)^i` times the basis vector of turn
`i` at each step. -/
def generate_3d_coordinates (turns : List TurnDirection) (numBeads : ℕ) :
    Option (List (ℤ × ℤ × ℤ)) :=
  if turns.length + 1 = numBeads then
    some ((0, 0, 0) :: walkFrom (0, 0, 0) 0 turns)
  else none

/-- Python slice `s[:-t]` used for the interaction bits
(`raw_bitstring[:-num_shape_qubits]` in `_find_main_main_contacts`): all
but the last `t` elements, empty when `t` is zero (python `[:-0]`). -/
def sliceDropEnd (l : List Bool) (t : ℕ) : List Bool :=
  if t = 0 then [] else l.take (l.length - t)

/-- Python `range(a, stop, 2)` as a list. -/
def rangeStep2 (a stop : ℕ) : List ℕ :=
  (List.range ((stop - a + 1) / 2)).map (fun k => a + 2 * k)

/-- Iteration order of the interaction-bit reader of
`_find_main_main_contacts`: for `i` in `range(num_beads - 5)`, for `j` in
`range(i + 5, num_beads, 2)`. -/
def interactionPairs (numBeads : ℕ) : List (ℕ × ℕ) :=
  (List.range (numBeads - 5)).flatMap
    (fun i => (rangeStep2 (i + 5) numBeads).map (fun j => (i, j)))

/-- Python dict assignment `d[k] = v` on an insertion-ordered association
list: overwrite the existing entry for `k` or append a new one. -/
def dictSet : List (ℕ × ℕ) → ℕ → ℕ → List (ℕ × ℕ)
  | [], k, v => [(k, v)]
  | (k0, v0) :: rest, k, v =>
      if k0 = k then (k0, v) :: rest else (k0, v0) :: dictSet rest k v

/-- Python `ResultInterpreter._find_main_main_contacts`
(result_interpreter.py): walk the pair order, consume one interaction bit
per pair, record `contacts[i] = j` for each set bit, and stop as soon as
the bits run out (extra bits are only warned about).  The zip truncates to
the shorter of the pair list and the bit list, which is exactly that loop
including its early `break`. -/
def find_main_main_contacts (interactionBits : List Bool) (numBeads : ℕ) :
    List (ℕ × ℕ) :=
  ((interactionPairs numBeads).zip interactionBits).foldl
    (fun d pb => if pb.2 then dictSet d pb.1.1 pb.1.2 else d) []

/-- Flagged pairs in iteration order: the pairs whose consumed interaction
bit is set. -/
def flaggedPairs (interactionBits : List Bool) (numBeads : ℕ) : List (ℕ × ℕ) :=
  ((interactionPairs numBeads).zip interactionBits).filterMap
    (fun pb => if pb.2 then some pb.1 else none)

/-- Flagged upper indices for a given lower index, in iteration order. -/
def flaggedUppers (interactionBits : List Bool) (numBeads : ℕ) (i : ℕ) : List ℕ :=
  (flaggedPairs interactionBits numBeads).filterMap
    (fun p => if p.1 = i then some p.2 else none)

/-- Python `ContactMap._create_main_main_contact` (contact_map.py): the
one-wire contact flag `convert_to_qubits` of a Z on wire
`lower * (N - 1) + upper` of the `(N - 1)^2`-qubit contact register. -/
def create_main_main_contact (mainChainLen lowerIdx upperIdx : ℕ) : SparsePauliOp :=
  convert_to_qubits
    (build_pauli_z_operator ((mainChainLen - 1) ^ 2)
      [lowerIdx * (mainChainLen - 1) + upperIdx])

/-- Python `ContactMap._initialize_contact_map` (contact_map.py) as the
association list of stored entries in loop order: for `lower` in
`range(N - 2)`, for `upper` in `range(lower + 2, N)`, skip same-sublattice
pairs (`SubLattice` is the bead index parity) and pairs closer than
`MIN_DISTANCE_BETWEEN_CONTACTS` along the chain. -/
def contactEntries (mainChainLen : ℕ) : List ((ℕ × ℕ) × SparsePauliOp) :=
  (List.range (mainChainLen - 2)).flatMap (fun lower =>
    (List.range' (lower + 2) (mainChainLen - (lower + 2))).filterMap (fun upper =>
      if lower % 2 = upper % 2 then none
      else if upper - lower < MIN_DISTANCE_BETWEEN_CONTACTS then none
      else some ((lower, upper), create_main_main_contact mainChainLen lower upper)))

example :
    (contactEntries 7).map Prod.fst = [(0, 5), (1, 6)] := by
  decide

/-- Python exception kinds raised along the protein-construction path. -/
inductive PyError where
  | typeErr
  | notImplementedErr
  | chainLengthErr
  | unsupportedAminoAcidSymbolErr
deriving DecidableEq

/-- Python constant `EMPTY_SIDECHAIN_PLACEHOLDER = "_"` (constants.py). -/
def EMPTY_SIDECHAIN_PLACEHOLDER : Char := '_'

/-- Python constant `MIN_CHAIN_LENGTH = 5` (constants.py). -/
def MIN_CHAIN_LENGTH : ℕ := 5

/-- Parameter names of `_SideBead.__init__` (side_bead.py). -/
def SIDE_BEAD_INIT_PARAMS : List String := ["symbol", "index", "parent_chain_len"]

/-- Keyword-argument names used by the `_SideBead(...)` call in
`_SideChain._initialize_beads` (side_chain.py).  They carry a leading
underscore and therefore do not match the parameter names above. -/
def SIDE_BEAD_CALL_KEYWORDS : List String :=
  ["_symbol", "_index", "_parent_chain_len"]

/-- A bead of the side chain as stored by `_SideChain._initialize_beads`:
either an inert placeholder or a real side bead. -/
inductive SideChainBead where
  | placeholder (symbol : Char) (index : ℕ)
  | real (symbol : Char) (index : ℕ)
deriving DecidableEq

/-- Result of constructing a single side bead. -/
inductive BeadResult where
  | ok (b : SideChainBead)
  | error (e : PyError)
deriving DecidableEq

/-- Result of constructing a side chain (or a whole protein). -/
inductive ProteinInitResult where
  | ok (sideBeads : List SideChainBead)
  | error (e : PyError)
deriving DecidableEq

/-- The python call `_SideBead(_symbol=..., _index=..., _parent_chain_len=...)`
of side_chain.py under python call semantics: keyword binding is checked
before the body runs, so a keyword that matches no parameter raises
`TypeError`, and the `NotImplementedError` raised by the body of
`_SideBead.__init__` (side_bead.py) is reached only if every keyword
binds. -/
def sideBeadCall (symbol : Char) (index : ℕ) : BeadResult :=
  if SIDE_BEAD_CALL_KEYWORDS.all (fun k => SIDE_BEAD_INIT_PARAMS.contains k) then
    BeadResult.error PyError.notImplementedErr
  else
    let _ := SideChainBead.real symbol index
    BeadResult.error PyError.typeErr

/-- Recursion over the indexed sequence for `_SideChain._initialize_beads`
(side_chain.py): a `_PlaceholderSideBead` for the placeholder symbol and a
`_SideBead` (through the keyword call above) otherwise; the first raised
exception aborts the list construction. -/
def sideChainInitAux : List (ℕ × Char) → ProteinInitResult
  | [] => ProteinInitResult.ok []
  | (idx, c) :: rest =>
      let r :=
        if c ≠ EMPTY_SIDECHAIN_PLACEHOLDER then sideBeadCall c idx
        else BeadResult.ok (SideChainBead.placeholder c idx)
      match r with
      | BeadResult.error e => ProteinInitResult.error e
      | BeadResult.ok b =>
          match sideChainInitAux rest with
          | ProteinInitResult.error e => ProteinInitResult.error e
          | ProteinInitResult.ok bs => ProteinInitResult.ok (b :: bs)

/-- Python `_SideChain._initialize_beads` (side_chain.py) over an
enumerated protein sequence.  This method is dead code: no call to
`_initialize_beads` exists anywhere in the package (in particular
`Chain.__init__` does not invoke it), so this models what the method
would do if it were ever called. -/
def sideChainInitBeads (proteinSequence : List Char) : ProteinInitResult :=
  sideChainInitAux proteinSequence.enum

/-- Python `Chain.__init__` (chain.py): it only sets `self.beads = []` and
returns; it never calls `_initialize_beads`.  Both `_MainChain.__init__`
and `_SideChain.__init__` delegate to it via `super().__init__`, so every
chain is constructed with an empty bead list. -/
def chain_init (_proteinSequence : List Char) : List SideChainBead := []

/-- Python `Protein.__init__` (protein.py): validate the symbols, the
matching lengths and the minimum length, then build the main chain and the
side chain.  Each chain constructor delegates to `Chain.__init__`, which
only sets `beads = []` and never calls `_initialize_beads`, so a validated
construction succeeds with empty bead lists and raises nothing. -/
def protein_init (mainSeq sideSeq : List Char) (validSymbols : List Char) :
    ProteinInitResult :=
  let concatenated := mainSeq ++ sideSeq.filter (· ≠ EMPTY_SIDECHAIN_PLACEHOLDER)
  if ¬ concatenated.all (fun c => validSymbols.contains c) then
    ProteinInitResult.error PyError.unsupportedAminoAcidSymbolErr
  else if mainSeq.length ≠ sideSeq.length then
    ProteinInitResult.error PyError.chainLengthErr
  else if mainSeq.length < MIN_CHAIN_LENGTH ∨ sideSeq.length < MIN_CHAIN_LENGTH then
    ProteinInitResult.error PyError.chainLengthErr
  else
    ProteinInitResult.ok (chain_init sideSeq)

example :
    protein_init ['A', 'P', 'R', 'L', 'R'] ['_', 'A', '_', '_', '_']
      ['A', 'P', 'R', 'L'] = ProteinInitResult.ok [] := by
  decide

/-- Turn register width of a bead's parent chain (bead.py):
`(parent_chain_len - 1) * QUBITS_PER_TURN`. -/
def numTurnQubits (enc : ConformationEncoding) (parentChainLen : ℕ) : ℕ :=
  (parentChainLen - 1) * enc.qubitsPerTurn

/-- Python `Bead._initialize_turn_qubits` (bead.py): the `i`-th turn qubit
of the bead at `index` is the turn indicator on wire
`QUBITS_PER_TURN * index + i`. -/
def bead_turn_qubit (enc : ConformationEncoding) (parentChainLen index i : ℕ) :
    SparsePauliOp :=
  build_turn_qubit (enc.qubitsPerTurn * index + i) (numTurnQubits enc parentChainLen)

/-- Python `MainBead._dense_turn_fun_0` (main_bead.py):
`((I - q0) @ (I - q1)).simplify()`. -/
def dense_turn_fun_0 (parentChainLen index : ℕ) : SparsePauliOp :=
  let n := numTurnQubits .dense parentChainLen
  let q0 := bead_turn_qubit .dense parentChainLen index 0
  let q1 := bead_turn_qubit .dense parentChainLen index 1
  simplifyOp (composeOp (subOp (build_identity_op n) q0) (subOp (build_identity_op n) q1))

/-- Python `MainBead._dense_turn_fun_1` (main_bead.py):
`(q1 @ (q1 - q0)).simplify()`. -/
def dense_turn_fun_1 (parentChainLen index : ℕ) : SparsePauliOp :=
  let q0 := bead_turn_qubit .dense parentChainLen index 0
  let q1 := bead_turn_qubit .dense parentChainLen index 1
  simplifyOp (composeOp q1 (subOp q1 q0))

/-- Python `MainBead._dense_turn_fun_2` (main_bead.py):
`(q0 @ (q0 - q1)).simplify()`. -/
def dense_turn_fun_2 (parentChainLen index : ℕ) : SparsePauliOp :=
  let q0 := bead_turn_qubit .dense parentChainLen index 0
  let q1 := bead_turn_qubit .dense parentChainLen index 1
  simplifyOp (composeOp q0 (subOp q0 q1))

/-- Python `MainBead._dense_turn_fun_3` (main_bead.py):
`(q0 @ q1).simplify()`. -/
def dense_turn_fun_3 (parentChainLen index : ℕ) : SparsePauliOp :=
  let q0 := bead_turn_qubit .dense parentChainLen index 0
  let q1 := bead_turn_qubit .dense parentChainLen index 1
  simplifyOp (composeOp q0 q1)

/-- The four dense turn functions of a main bead, as returned by
`MainBead.turn_0 .. turn_3` under the DENSE encoding. -/
def denseTurnFun (parentChainLen index : ℕ) : TurnDirection → SparsePauliOp
  | .DIR_0 => dense_turn_fun_0 parentChainLen index
  | .DIR_1 => dense_turn_fun_1 parentChainLen index
  | .DIR_2 => dense_turn_fun_2 parentChainLen index
  | .DIR_3 => dense_turn_fun_3 parentChainLen index

/-- The four sparse turn functions of a main bead, as returned by
`MainBead.turn_0 .. turn_3` under the SPARSE encoding: the turn qubits
themselves. -/
def sparseTurnFun (parentChainLen index : ℕ) : TurnDirection → SparsePauliOp :=
  fun d => bead_turn_qubit .sparse parentChainLen index d.val

/-- C2, counterexample.  For N = 6 main beads in dense encoding with no
side bead at the fifth position, the shape-bit slice length is indeed
2*(6-3) - 1 = 5, but the decoder maps the shape bits 10110 to the turn
sequence (DIR_1, DIR_0, DIR_1, DIR_3, DIR_1), not to the claimed
(DIR_0, DIR_1, DIR_3, DIR_2, DIR_1): after the final endianness reversal
the two reinstated fixed turns decode as DIR_1 then DIR_0. -/
theorem c2_decoded_sequence_counterexample :
    decode_turn_sequence [true, false, true, true, false] 6
        ConformationEncoding.dense true ≠
      some [TurnDirection.DIR_0, TurnDirection.DIR_1, TurnDirection.DIR_3,
        TurnDirection.DIR_2, TurnDirection.DIR_1] := by
  decide

/-- C2, amended.  In dense encoding, for a protein with 6 main beads and
no side bead at the fifth position, the decoder's shape-bit slice has
length 2*(6-3) - 1 = 5, and for a measurement whose shape bits are 10110
the decoded turn sequence - after reinstating the two fixed leading turns
(which decode as DIR_1 then DIR_0 once the assembled string is reversed)
and inserting the fixed 1 bit, which lands in the third turn group - is
(DIR_1, DIR_0, DIR_1, DIR_3, DIR_1). -/
theorem c2_dense_decode_of_10110 :
    get_target_sequence_length_main_chain 6 ConformationEncoding.dense true = 5 ∧
    decode_turn_sequence [true, false, true, true, false] 6
        ConformationEncoding.dense true =
      some [TurnDirection.DIR_1, TurnDirection.DIR_0, TurnDirection.DIR_1,
        TurnDirection.DIR_3, TurnDirection.DIR_1] := by
  decide

/-- C3.  The claim (and the function's own docstring) ask for the wires
that carry the identity in every term, requiring both the Z bit and the X
bit to be clear; the code inspects only the Z table.  On the single-term
operator X on wire 0 of a 1-qubit register, the code reports wire 0 as
unused even though its X bit is set in that term, so the claimed
characterisation fails. -/
theorem c3_find_unused_qubits_ignores_x_bits :
    find_unused_qubits ⟨1, [⟨[false], [true], 1⟩]⟩ = [0] ∧
    (SparsePauliOp.mk 1 [⟨[false], [true], 1⟩]).terms.any
      (fun t => t.x.getD 0 false) = true := by
  decide

/-- C7, counterexample.  For the single-term operator Z on wire 1 of a
6-qubit register with coefficient +1, the single-term shortcut of
`fix_qubits` skips the sign rule entirely, so the result is plus the
identity and not minus the identity as claimed. -/
theorem c7_single_term_counterexample :
    fix_qubits ⟨6, [⟨zMask 6 [1], zeros 6, 1⟩]⟩ false ≠
      build_identity_op 6 (-1) := by
  have h1 : fix_qubits ⟨6, [⟨zMask 6 [1], zeros 6, 1⟩]⟩ false =
      build_identity_op 6 1 := by decide
  rw [h1]
  simp only [build_identity_op, SparsePauliOp.mk.injEq, List.cons.injEq,
    PauliTerm.mk.injEq, ne_eq]
  intro h
  have := h.2.1.2.2
  norm_num at this

/-- C7, amended.  For the single-term operator Z on wire 1 of a 6-qubit
register with coefficient +1, `fix_qubits` returns plus the identity on 6
qubits: the single-term shortcut skips the sign-flip rule and only the
bit-clearing step runs. -/
theorem c7_single_term_shortcut_gives_plus_identity :
    fix_qubits ⟨6, [⟨zMask 6 [1], zeros 6, 1⟩]⟩ false = build_identity_op 6 1 := by
  decide

/-- Helper for C9: as soon as the indexed side-chain sequence contains a
non-placeholder symbol, `_initialize_beads` attempts the keyword call
`_SideBead(_symbol=..., ...)`, whose keywords match no parameter of
`_SideBead.__init__`, so the construction raises `TypeError`. -/
theorem sideChainInitAux_error_of_real_bead (l : List (ℕ × Char))
    (h : l.any (fun p => p.2 ≠ EMPTY_SIDECHAIN_PLACEHOLDER) = true) :
    sideChainInitAux l = ProteinInitResult.error PyError.typeErr := by
  induction l with
  | nil => simp at h
  | cons hd tl ih =>
      rw [List.any_cons] at h
      by_cases hc : hd.2 = EMPTY_SIDECHAIN_PLACEHOLDER
      · have htl : tl.any (fun p => p.2 ≠ EMPTY_SIDECHAIN_PLACEHOLDER) = true := by
          rcases Bool.or_eq_true_iff.mp h with h1 | h1
          · exfalso
            rw [hc] at h1
            simp at h1
          · exact h1
        obtain ⟨i, c⟩ := hd
        simp only [sideChainInitAux]
        simp only at hc
        rw [if_neg (by simp [hc])]
        rw [ih htl]
      · obtain ⟨i, c⟩ := hd
        simp only [sideChainInitAux]
        simp only at hc
        rw [if_pos (by simpa using hc)]
        rfl

/-- Helper for C9: the predicate transported through `List.enum`. -/
theorem enumFrom_any_snd (n : ℕ) (l : List Char) (f : Char → Bool) :
    (l.enumFrom n).any (fun p => f p.2) = l.any f := by
  induction l generalizing n with
  | nil => rfl
  | cons hd tl ih => simp [List.enumFrom, List.any_cons, ih]

/-- Helper for C9: the predicate transported through `List.enum`. -/
theorem enum_any_snd (l : List Char) (f : Char → Bool) :
    l.enum.any (fun p => f p.2) = l.any f :=
  enumFrom_any_snd 0 l f

/-- C9.  Constructing a Protein whose side-chain sequence contains a
non-placeholder symbol does not fail with a not-implemented error, on two
counts.  First, the construction raises nothing at all: `Chain.__init__`
only sets `beads = []` and `_initialize_beads` is never called anywhere in
the package, so a validated `Protein(...)` succeeds with empty bead lists
and the side-bead code is never exercised.  Second, the reserved error is
unreachable even from the dead method: the keyword call
`_SideBead(_symbol=..., _index=..., _parent_chain_len=...)` in
`_SideChain._initialize_beads` matches no parameter of
`_SideBead.__init__(symbol, index, parent_chain_len)`, so python would
raise `TypeError` during keyword binding, before the `NotImplementedError`
in the constructor body could be reached. -/
theorem c9_not_implemented_error_unreachable
    (mainSeq sideSeq validSymbols : List Char)
    (hvalid : (mainSeq ++ sideSeq.filter (· ≠ EMPTY_SIDECHAIN_PLACEHOLDER)).all
      (fun c => validSymbols.contains c) = true)
    (hlen : mainSeq.length = sideSeq.length)
    (hmin : MIN_CHAIN_LENGTH ≤ mainSeq.length)
    (hreal : sideSeq.any (fun c => c ≠ EMPTY_SIDECHAIN_PLACEHOLDER) = true) :
    protein_init mainSeq sideSeq validSymbols =
      ProteinInitResult.ok (chain_init sideSeq) ∧
    sideChainInitBeads sideSeq =
      ProteinInitResult.error PyError.typeErr := by
  constructor
  · unfold protein_init
    rw [if_neg (not_not_intro hvalid), if_neg (not_not_intro hlen),
      if_neg (by omega)]
  · unfold sideChainInitBeads
    have h2 : sideSeq.enum.any
        (fun p => decide (p.2 ≠ EMPTY_SIDECHAIN_PLACEHOLDER)) = true :=
      (enum_any_snd sideSeq
        (fun c => decide (c ≠ EMPTY_SIDECHAIN_PLACEHOLDER))).trans hreal
    exact sideChainInitAux_error_of_real_bead _ h2

/-- C9, witness: the concrete protein APRLR with one real side bead
constructs successfully with empty bead lists, while the dead
`_initialize_beads` would raise `TypeError` on its side sequence. -/
theorem c9_unreachable_witness :
    protein_init ['A', 'P', 'R', 'L', 'R'] ['_', 'A', '_', '_', '_']
      ['A', 'P', 'R', 'L'] =
        ProteinInitResult.ok (chain_init ['_', 'A', '_', '_', '_']) ∧
    sideChainInitBeads ['_', 'A', '_', '_', '_'] =
      ProteinInitResult.error PyError.typeErr :=
  c9_not_implemented_error_unreachable
    ['A', 'P', 'R', 'L', 'R'] ['_', 'A', '_', '_', '_'] ['A', 'P', 'R', 'L']
    (by decide) (by decide) (by decide) (by decide)

/-- The all-false mask reads false at every position. -/
theorem zeros_getD (n k : ℕ) : (zeros n).getD k false = false := by
  by_cases h : k < n
  · rw [List.getD_eq_getElem?_getD]
    rw [List.getElem?_eq_getElem (by simpa [zeros] using h)]
    simp [zeros]
  · rw [List.getD_eq_default]
    simpa [zeros] using Nat.le_of_not_lt h

/-- Clearing position `i` makes the bit at `i` read false. -/
theorem preset_single_getD_self (z : List Bool) (i : ℕ) :
    (preset_single_binary_val z i).getD i false = false := by
  unfold preset_single_binary_val
  by_cases h : i < z.length
  · rw [if_pos h, List.getD_eq_getElem?_getD, List.getElem?_set_self (by simpa using h)]
    simp
  · rw [if_neg h, List.getD_eq_default _ _ (Nat.le_of_not_lt h)]

/-- Clearing any position never turns a false bit true. -/
theorem preset_single_preserves_false (z : List Bool) (i k : ℕ)
    (h : z.getD k false = false) :
    (preset_single_binary_val z i).getD k false = false := by
  unfold preset_single_binary_val
  by_cases hlen : i < z.length
  · rw [if_pos hlen]
    by_cases hik : i = k
    · subst hik
      rw [List.getD_eq_getElem?_getD, List.getElem?_set_self (by simpa using hlen)]
      simp
    · rw [List.getD_eq_getElem?_getD, List.getElem?_set_ne hik, ← List.getD_eq_getElem?_getD]
      exact h
  · rw [if_neg hlen]
    exact h

/-- A false bit stays false through any sequence of clears. -/
theorem foldl_preset_preserves_false (idxs : List ℕ) (z : List Bool) (k : ℕ)
    (h : z.getD k false = false) :
    ((idxs.foldl preset_single_binary_val z).getD k false) = false := by
  induction idxs generalizing z with
  | nil => exact h
  | cons i rest ih =>
      rw [List.foldl_cons]
      exact ih _ (preset_single_preserves_false z i k h)

/-- Every position of the clear list reads false after the fold. -/
theorem foldl_preset_getD (idxs : List ℕ) (z : List Bool) (k : ℕ) (hk : k ∈ idxs) :
    ((idxs.foldl preset_single_binary_val z).getD k false) = false := by
  induction idxs generalizing z with
  | nil => cases hk
  | cons i rest ih =>
      rw [List.foldl_cons]
      rcases List.mem_cons.mp hk with h1 | h1
      · subst h1
        exact foldl_preset_preserves_false rest _ k (preset_single_getD_self z k)
      · exact ih _ h1

/-- After `_preset_binary_vals`, the Z bits at positions 0, 1, 2, 3 and 5
read false for both values of the side-chain flag, because the constant
`MAIN_CHAIN_FIXED_POSITIONS` already contains position 5. -/
theorem preset_binary_vals_getD (z : List Bool) (flag : Bool) (k : ℕ)
    (hk : k ∈ MAIN_CHAIN_FIXED_POSITIONS) :
    (preset_binary_vals z flag).getD k false = false := by
  unfold preset_binary_vals
  exact foldl_preset_getD _ z k (List.mem_append_left _ hk)

/-- Membership after inserting a term into the groups: the masks come from
the accumulator or from the inserted term. -/
theorem mem_addIntoGroups (acc : List PauliTerm) (u t : PauliTerm)
    (h : t ∈ addIntoGroups acc u) :
    (∃ v ∈ acc, t.z = v.z ∧ t.x = v.x) ∨ (t.z = u.z ∧ t.x = u.x) := by
  induction acc with
  | nil =>
      simp only [addIntoGroups, List.mem_singleton] at h
      exact Or.inr ⟨by rw [h], by rw [h]⟩
  | cons v rest ih =>
      simp only [addIntoGroups] at h
      by_cases hc : v.z = u.z ∧ v.x = u.x
      · rw [if_pos hc] at h
        rcases List.mem_cons.mp h with h1 | h1
        · exact Or.inl ⟨v, List.mem_cons_self v rest, by rw [h1], by rw [h1]⟩
        · exact Or.inl ⟨t, List.mem_cons_of_mem v h1, rfl, rfl⟩
      · rw [if_neg hc] at h
        rcases List.mem_cons.mp h with h1 | h1
        · exact Or.inl ⟨v, List.mem_cons_self v rest, by rw [h1], by rw [h1]⟩
        · rcases ih h1 with h2 | h2
          · rcases h2 with ⟨w, hw, hz, hx⟩
            exact Or.inl ⟨w, List.mem_cons_of_mem v hw, hz, hx⟩
          · exact Or.inr h2

/-- Membership in the grouped list: the masks of every group come from
some term of the input list. -/
theorem mem_foldl_addIntoGroups (l acc : List PauliTerm) (t : PauliTerm)
    (h : t ∈ l.foldl addIntoGroups acc) :
    (∃ v ∈ acc, t.z = v.z ∧ t.x = v.x) ∨ (∃ u ∈ l, t.z = u.z ∧ t.x = u.x) := by
  induction l generalizing acc with
  | nil => exact Or.inl ⟨t, h, rfl, rfl⟩
  | cons u rest ih =>
      rw [List.foldl_cons] at h
      rcases ih (addIntoGroups acc u) h with h1 | h1
      · rcases h1 with ⟨v, hv, hz, hx⟩
        rcases mem_addIntoGroups acc u v hv with h2 | h2
        · rcases h2 with ⟨w, hw, hz2, hx2⟩
          exact Or.inl ⟨w, hw, hz.trans hz2, hx.trans hx2⟩
        · exact Or.inr ⟨u, List.mem_cons_self u rest, hz.trans h2.1, hx.trans h2.2⟩
      · rcases h1 with ⟨u2, hu2, hz, hx⟩
        exact Or.inr ⟨u2, List.mem_cons_of_mem u hu2, hz, hx⟩

/-- Masks of the simplified list come from the input list. -/
theorem mem_simplifyTerms (l : List PauliTerm) (t : PauliTerm)
    (h : t ∈ simplifyTerms l) :
    ∃ u ∈ l, t.z = u.z ∧ t.x = u.x := by
  unfold simplifyTerms at h
  have h1 := List.mem_of_mem_filter h
  rcases mem_foldl_addIntoGroups l [] t h1 with h2 | h2
  · rcases h2 with ⟨v, hv, _⟩
    cases hv
  · exact h2

/-- C1, counterexample.  With a side bead present at position 5
(`has_side_chain_second_bead = True`), `fix_qubits` still clears the Z bit
at position 5: on the single-term operator Z on wire 5 of a 6-qubit
register, the input has the bit set and every output term has it clear,
so the bit is not left unchanged as claimed. -/
theorem c1_bit5_cleared_despite_side_bead :
    (SparsePauliOp.mk 6 [⟨zMask 6 [5], zeros 6, 1⟩]).terms.any
      (fun t => t.z.getD 5 false) = true ∧
    (fix_qubits ⟨6, [⟨zMask 6 [5], zeros 6, 1⟩]⟩ true).terms.any
      (fun t => t.z.getD 5 false) = false := by
  decide

/-- C1, amended.  For every Pauli operator and both values of the
side-chain flag, `fix_qubits` clears the Z bits of every term at positions
0, 1, 2, 3 and 5 (where those positions exist): the constant
`MAIN_CHAIN_FIXED_POSITIONS = [0, 1, 2, 3, 5]` already contains position
5, so the conditional extra append of position 5 is redundant and the bit
is cleared regardless of the flag. -/
theorem c1_fix_qubits_clears_fixed_positions (op : SparsePauliOp) (flag : Bool)
    (t : PauliTerm) (ht : t ∈ (fix_qubits op flag).terms) (k : ℕ)
    (hk : k ∈ MAIN_CHAIN_FIXED_POSITIONS) :
    t.z.getD k false = false := by
  have main : ∀ (l : List PauliTerm), t ∈ (simplifyOp ⟨op.numQubits, l⟩).terms →
      (∀ u ∈ l, ∃ z0, u.z = preset_binary_vals z0 flag) →
      t.z.getD k false = false := by
    intro l hmem hsrc
    unfold simplifyOp at hmem
    by_cases hemp : (simplifyTerms l).isEmpty
    · rw [if_pos hemp] at hmem
      simp only [List.mem_singleton] at hmem
      rw [hmem]
      exact zeros_getD _ _
    · rw [if_neg hemp] at hmem
      rcases mem_simplifyTerms l t hmem with ⟨u, hu, hz, _⟩
      rcases hsrc u hu with ⟨z0, hz0⟩
      rw [hz, hz0]
      exact preset_binary_vals_getD z0 flag k hk
  unfold fix_qubits at ht
  by_cases hone : op.terms.length = 1
  · rw [if_pos hone] at ht
    refine main _ ht ?_
    intro u hu
    rcases List.mem_map.mp hu with ⟨v, _, hv⟩
    exact ⟨v.z, by rw [← hv]⟩
  · rw [if_neg hone] at ht
    refine main _ ht ?_
    intro u hu
    rcases List.mem_map.mp hu with ⟨v, _, hv⟩
    exact ⟨v.z, by rw [← hv]⟩

/-- C1, witness: the fixed positions of a concrete `fix_qubits` output
term all read false. -/
theorem c1_witness :
    (⟨zeros 6, zeros 6, 1⟩ : PauliTerm) ∈
      (fix_qubits ⟨6, [⟨zMask 6 [5], zeros 6, 1⟩]⟩ true).terms ∧
    (5 : ℕ) ∈ MAIN_CHAIN_FIXED_POSITIONS ∧
    (⟨zeros 6, zeros 6, 1⟩ : PauliTerm).z.getD 5 false = false :=
  ⟨by decide, by decide,
    c1_fix_qubits_clears_fixed_positions ⟨6, [⟨zMask 6 [5], zeros 6, 1⟩]⟩ true
      ⟨zeros 6, zeros 6, 1⟩ (by decide) 5 (by decide)⟩

/-- Loop-level membership characterisation of the contact map entries. -/
theorem mem_contactEntries (N i j : ℕ) (op : SparsePauliOp) :
    ((i, j), op) ∈ contactEntries N ↔
      (i < N - 2 ∧ i + 2 ≤ j ∧ j < N ∧ ¬ i % 2 = j % 2 ∧ ¬ j - i < 5 ∧
        op = create_main_main_contact N i j) := by
  unfold contactEntries
  rw [List.mem_flatMap]
  constructor
  · rintro ⟨lower, hlower, hmem⟩
    rw [List.mem_filterMap] at hmem
    rcases hmem with ⟨upper, hupper, heq⟩
    rw [List.mem_range] at hlower
    rw [List.mem_range'_1] at hupper
    split_ifs at heq with h1 h2
    cases heq
    refine ⟨hlower, hupper.1, ?_, h1, ?_, rfl⟩
    · have := hupper.2
      omega
    · unfold MIN_DISTANCE_BETWEEN_CONTACTS at h2
      omega
  · rintro ⟨h1, h2, h3, h4, h5, h6⟩
    refine ⟨i, List.mem_range.mpr h1, ?_⟩
    rw [List.mem_filterMap]
    refine ⟨j, List.mem_range'_1.mpr ⟨h2, by omega⟩, ?_⟩
    rw [if_neg h4, if_neg (by unfold MIN_DISTANCE_BETWEEN_CONTACTS; omega)]
    rw [h6]

/-- The stored contact operator in explicit term form: half the identity
minus half the Z on the contact wire. -/
theorem create_main_main_contact_eq (N i j : ℕ) :
    create_main_main_contact N i j =
      ⟨(N - 1) ^ 2,
        [⟨zeros ((N - 1) ^ 2), zeros ((N - 1) ^ 2), 1 / 2⟩,
         ⟨zMask ((N - 1) ^ 2) [i * (N - 1) + j], zeros ((N - 1) ^ 2), -(1 / 2)⟩]⟩ := by
  unfold create_main_main_contact convert_to_qubits build_pauli_z_operator
  rw [if_neg (by simp)]
  unfold scalarMul subOp addOp scalarMul build_identity_op NORM_FACTOR
  norm_num

/-- C4.  For a main chain of length N at least 5, the contact map stores
an entry at (i, j) exactly when i is less than j, the beads lie on
opposite sublattices (different index parity) and the chain separation
j - i is at least 5; and every stored entry is the operator
half identity minus half Z on wire i*(N-1) + j of the (N-1)^2-qubit
contact register. -/
theorem c4_contact_map_characterisation (N : ℕ) (hN : 5 ≤ N) (i j : ℕ) :
    ((∃ op, ((i, j), op) ∈ contactEntries N) ↔
      (i < j ∧ ¬ i % 2 = j % 2 ∧ 5 ≤ j - i ∧ j < N)) ∧
    (∀ op, ((i, j), op) ∈ contactEntries N →
      op = ⟨(N - 1) ^ 2,
        [⟨zeros ((N - 1) ^ 2), zeros ((N - 1) ^ 2), 1 / 2⟩,
         ⟨zMask ((N - 1) ^ 2) [i * (N - 1) + j], zeros ((N - 1) ^ 2), -(1 / 2)⟩]⟩) := by
  constructor
  · constructor
    · rintro ⟨op, hop⟩
      rw [mem_contactEntries] at hop
      rcases hop with ⟨h1, h2, h3, h4, h5, _⟩
      exact ⟨by omega, h4, by omega, h3⟩
    · rintro ⟨h1, h2, h3, h4⟩
      refine ⟨create_main_main_contact N i j, ?_⟩
      rw [mem_contactEntries]
      exact ⟨by omega, by omega, h4, h2, by omega, rfl⟩
  · intro op hop
    rw [mem_contactEntries] at hop
    rw [hop.2.2.2.2.2]
    exact create_main_main_contact_eq N i j

/-- C4, witness: for N = 7 the pair (0, 5) is stored with the explicit
contact operator on wire 5 of the 36-qubit register. -/
theorem c4_witness :
    (5 ≤ 7 ∧
      ((∃ op, ((0, 5), op) ∈ contactEntries 7) ↔
        (0 < 5 ∧ ¬ 0 % 2 = 5 % 2 ∧ 5 ≤ 5 - 0 ∧ 5 < 7))) ∧
    (0 < 5 ∧ ¬ 0 % 2 = 5 % 2 ∧ 5 ≤ 5 - 0 ∧ 5 < 7) :=
  ⟨⟨by decide, (c4_contact_map_characterisation 7 (by decide) 0 5).1⟩, by decide⟩

/-- Componentwise difference of integer coordinate triples. -/
def subVec (a b : ℤ × ℤ × ℤ) : ℤ × ℤ × ℤ :=
  (a.1 - b.1, a.2.1 - b.2.1, a.2.2 - b.2.2)

/-- The walk tail has one position per turn. -/
theorem walkFrom_length (pos : ℤ × ℤ × ℤ) (i : ℕ) (ts : List TurnDirection) :
    (walkFrom pos i ts).length = ts.length := by
  induction ts generalizing pos i with
  | nil => rfl
  | cons d ds ih => simp [walkFrom, ih]

/-- Difference of a step destination and its origin. -/
theorem subVec_addVec (p v : ℤ × ℤ × ℤ) : subVec (addVec p v) p = v := by
  obtain ⟨px, py, pz⟩ := p
  obtain ⟨vx, vy, vz⟩ := v
  simp [subVec, addVec]

/-- Step property of the walk: consecutive positions of
`pos :: walkFrom pos i ts` differ by the signed basis vector of the
corresponding turn. -/
theorem walkFrom_step (ts : List TurnDirection) (pos : ℤ × ℤ × ℤ) (i k : ℕ)
    (hk : k < ts.length) :
    subVec ((pos :: walkFrom pos i ts).getD (k + 1) (0, 0, 0))
        ((pos :: walkFrom pos i ts).getD k (0, 0, 0)) =
      smulVec ((-1) ^ (i + k)) (FCC_BASIS_NUM (ts.getD k TurnDirection.DIR_0)) := by
  induction ts generalizing pos i k with
  | nil => cases hk
  | cons d ds ih =>
      match k with
      | 0 =>
          show subVec (walkStep pos i d) pos = _
          rw [walkStep, subVec_addVec, Nat.add_zero]
          rfl
      | k + 1 =>
          have hk2 : k < ds.length := by simpa using Nat.lt_of_succ_lt_succ hk
          have h3 := ih (walkStep pos i d) (i + 1) k hk2
          have harith : i + 1 + k = i + (k + 1) := by omega
          rw [harith] at h3
          exact h3

/-- Squared norm of a scalar multiple. -/
theorem sqNorm_smulVec (s : ℤ) (v : ℤ × ℤ × ℤ) :
    sqNorm (smulVec s v) = s ^ 2 * sqNorm v := by
  obtain ⟨vx, vy, vz⟩ := v
  simp only [sqNorm, smulVec]
  ring

/-- Each FCC basis vector has squared norm 3 in the scaled lattice. -/
theorem sqNorm_FCC_BASIS_NUM (d : TurnDirection) : sqNorm (FCC_BASIS_NUM d) = 3 := by
  cases d <;> decide

/-- C8.  For every decoded result on a protein with `numBeads` main beads,
the turn sequence has length `numBeads - 1`, the coordinate list has
length `numBeads` and starts at the origin, and consecutive coordinates
differ by `(-1)^k` times the FCC basis vector of turn k.  Coordinates are
carried in the `sqrt 3`-scaled integer lattice, where the code's
normalised basis vectors become the integer triples of `FCC_BASIS_NUM`;
each step has squared scaled norm exactly 3, so each real-space step has
length exactly 1 (the float code reproduces this within 10^-9). -/
theorem c8_decoded_walk (turns : List TurnDirection) (numBeads : ℕ)
    (coords : List (ℤ × ℤ × ℤ))
    (h : generate_3d_coordinates turns numBeads = some coords) :
    turns.length = numBeads - 1 ∧
    coords.length = numBeads ∧
    coords.getD 0 (0, 0, 0) = (0, 0, 0) ∧
    ∀ k, k < numBeads - 1 →
      (subVec (coords.getD (k + 1) (0, 0, 0)) (coords.getD k (0, 0, 0)) =
         smulVec ((-1) ^ k) (FCC_BASIS_NUM (turns.getD k TurnDirection.DIR_0)) ∧
       sqNorm (subVec (coords.getD (k + 1) (0, 0, 0)) (coords.getD k (0, 0, 0))) = 3) := by
  unfold generate_3d_coordinates at h
  by_cases hc : turns.length + 1 = numBeads
  · rw [if_pos hc, Option.some_inj] at h
    have hlen : turns.length = numBeads - 1 := by omega
    refine ⟨hlen, ?_, ?_, ?_⟩
    · rw [← h]
      simp [walkFrom_length]
      omega
    · rw [← h]
      rfl
    · intro k hk
      have hk2 : k < turns.length := by omega
      have hstep := walkFrom_step turns (0, 0, 0) 0 k hk2
      rw [Nat.zero_add] at hstep
      rw [← h]
      refine ⟨hstep, ?_⟩
      rw [hstep, sqNorm_smulVec, sqNorm_FCC_BASIS_NUM]
      have hsq : ((-1 : ℤ) ^ k) ^ 2 = 1 := by
        rw [← pow_mul, Nat.mul_comm, pow_mul]
        norm_num
      rw [hsq]
      ring
  · rw [if_neg hc] at h
    cases h

/-- C8, witness: the decode of the two-turn walk on three beads. -/
theorem c8_witness :
    generate_3d_coordinates [TurnDirection.DIR_0, TurnDirection.DIR_1] 3 =
        some [(0, 0, 0), (-1, 1, 1), (-2, 0, 2)] ∧
    [TurnDirection.DIR_0, TurnDirection.DIR_1].length = 3 - 1 :=
  ⟨by decide,
    (c8_decoded_walk [TurnDirection.DIR_0, TurnDirection.DIR_1] 3
      [(0, 0, 0), (-1, 1, 1), (-2, 0, 2)] (by decide)).1⟩

/-- Lookup at the head key of an association list. -/
theorem lookupConsSelf (k0 v0 : ℕ) (tl : List (ℕ × ℕ)) :
    List.lookup k0 ((k0, v0) :: tl) = some v0 := by
  rw [List.lookup_cons, show (k0 == k0) = true from beq_self_eq_true k0]

/-- Lookup skips a head entry with a different key. -/
theorem lookupConsNe (a k0 v0 : ℕ) (tl : List (ℕ × ℕ)) (h : a ≠ k0) :
    List.lookup a ((k0, v0) :: tl) = List.lookup a tl := by
  rw [List.lookup_cons, show (a == k0) = false from beq_eq_false_iff_ne.mpr h]

/-- Lookup after a python-style dict assignment: the assigned key now maps
to the new value and every other key is untouched. -/
theorem lookup_dictSet (d : List (ℕ × ℕ)) (k v a : ℕ) :
    List.lookup a (dictSet d k v) = if a = k then some v else List.lookup a d := by
  induction d with
  | nil =>
      by_cases h : a = k
      · subst h
        rw [dictSet, if_pos rfl, lookupConsSelf]
      · rw [dictSet, if_neg h, lookupConsNe _ _ _ _ h, List.lookup_nil]
  | cons hd tl ih =>
      obtain ⟨k0, v0⟩ := hd
      by_cases hk : k0 = k
      · subst hk
        by_cases ha : a = k0
        · subst ha
          rw [dictSet, if_pos rfl, lookupConsSelf, if_pos rfl]
        · rw [dictSet, if_pos rfl, lookupConsNe _ _ _ _ ha,
            if_neg ha, lookupConsNe _ _ _ _ ha]
      · by_cases ha : a = k0
        · subst ha
          rw [dictSet, if_neg hk, lookupConsSelf, if_neg hk, lookupConsSelf]
        · rw [dictSet, if_neg hk, lookupConsNe _ _ _ _ ha, ih,
            lookupConsNe _ _ _ _ ha]

/-- Keys after a python-style dict assignment: unchanged when the key was
present, the key appended otherwise. -/
theorem map_fst_dictSet (d : List (ℕ × ℕ)) (k v : ℕ) :
    (dictSet d k v).map Prod.fst =
      if k ∈ d.map Prod.fst then d.map Prod.fst else d.map Prod.fst ++ [k] := by
  induction d with
  | nil => simp [dictSet]
  | cons hd tl ih =>
      obtain ⟨k0, v0⟩ := hd
      by_cases hk : k0 = k
      · subst hk
        simp [dictSet]
      · rw [dictSet, if_neg hk]
        by_cases hmem : k ∈ tl.map Prod.fst
        · simp only [List.map_cons, ih, if_pos hmem]
          rw [if_pos (by simp [hmem])]
        · simp only [List.map_cons, ih, if_neg hmem]
          rw [if_neg (by simp [hmem, Ne.symm hk])]
          simp

/-- The dict assignment preserves distinctness of the stored keys. -/
theorem nodup_dictSet (d : List (ℕ × ℕ)) (k v : ℕ)
    (h : (d.map Prod.fst).Nodup) : ((dictSet d k v).map Prod.fst).Nodup := by
  rw [map_fst_dictSet]
  by_cases hmem : k ∈ d.map Prod.fst
  · rw [if_pos hmem]
    exact h
  · rw [if_neg hmem]
    rw [List.nodup_append]
    exact ⟨h, List.nodup_singleton k, by simpa using hmem⟩

/-- One step of the interaction-bit fold of `_find_main_main_contacts`. -/
def contactFoldStep (d : List (ℕ × ℕ)) (pb : (ℕ × ℕ) × Bool) : List (ℕ × ℕ) :=
  if pb.2 then dictSet d pb.1.1 pb.1.2 else d

/-- The flagged upper index extracted from one zipped pair of the fold,
for a fixed lower index. -/
def flagSelect (i : ℕ) (pb : (ℕ × ℕ) × Bool) : Option ℕ :=
  if pb.2 then (if pb.1.1 = i then some pb.1.2 else none) else none

/-- The contact fold looks up to the last flagged upper index for a key,
falling back to the initial dictionary. -/
theorem lookup_foldl_contactFoldStep (zl : List ((ℕ × ℕ) × Bool))
    (d : List (ℕ × ℕ)) (i : ℕ) :
    List.lookup i (zl.foldl contactFoldStep d) =
      ((zl.filterMap (flagSelect i)).getLast?).elim (List.lookup i d) some := by
  induction zl using List.reverseRecOn generalizing d with
  | nil => simp
  | append_singleton l pb ih =>
      rw [List.foldl_append, List.foldl_cons, List.foldl_nil, List.filterMap_append]
      by_cases hb : pb.2
      · by_cases hkey : pb.1.1 = i
        · have hsel : List.filterMap (flagSelect i) [pb] = [pb.1.2] := by
            rw [List.filterMap_cons]
            unfold flagSelect
            rw [if_pos hb, if_pos hkey, List.filterMap_nil]
          rw [hsel, List.getLast?_concat]
          show List.lookup i (contactFoldStep (l.foldl contactFoldStep d) pb) = some pb.1.2
          unfold contactFoldStep
          rw [if_pos hb, lookup_dictSet, if_pos hkey.symm]
        · have hsel : List.filterMap (flagSelect i) [pb] = [] := by
            rw [List.filterMap_cons]
            unfold flagSelect
            rw [if_pos hb, if_neg hkey, List.filterMap_nil]
          rw [hsel, List.append_nil]
          show List.lookup i (contactFoldStep (l.foldl contactFoldStep d) pb) = _
          unfold contactFoldStep
          rw [if_pos hb, lookup_dictSet, if_neg (fun h => hkey h.symm)]
          exact ih d
      · have hsel : List.filterMap (flagSelect i) [pb] = [] := by
          rw [List.filterMap_cons]
          unfold flagSelect
          rw [if_neg hb, List.filterMap_nil]
        rw [hsel, List.append_nil]
        show List.lookup i (contactFoldStep (l.foldl contactFoldStep d) pb) = _
        unfold contactFoldStep
        rw [if_neg hb]
        exact ih d

/-- The pair order visits each lower index with strictly increasing upper
indices. -/
theorem pairwise_interactionPairs (numBeads : ℕ) :
    (interactionPairs numBeads).Pairwise (fun p q => p.1 = q.1 → p.2 < q.2) := by
  unfold interactionPairs
  rw [List.flatMap_def, List.pairwise_flatten]
  constructor
  · intro l hl
    rw [List.mem_map] at hl
    obtain ⟨i, hi, rfl⟩ := hl
    rw [List.pairwise_map]
    have hplt : (rangeStep2 (i + 5) numBeads).Pairwise (· < ·) := by
      unfold rangeStep2
      rw [List.pairwise_map]
      exact (List.pairwise_lt_range _).imp (fun h => by omega)
    exact hplt.imp (fun {a b} hab => fun _ => hab)
  · rw [List.pairwise_map]
    refine (List.pairwise_lt_range _).imp ?_
    intro a b hab
    intro x hx y hy
    rw [List.mem_map] at hx hy
    obtain ⟨ja, _, rfl⟩ := hx
    obtain ⟨jb, _, rfl⟩ := hy
    intro hkey
    exact absurd hkey (by omega)

/-- Pairwise relations on the first components survive zipping. -/
theorem pairwise_zip_fst (P : (ℕ × ℕ) → (ℕ × ℕ) → Prop) (l : List (ℕ × ℕ))
    (b : List Bool) (h : l.Pairwise P) :
    (l.zip b).Pairwise (fun pb qb => P pb.1 qb.1) := by
  induction l generalizing b with
  | nil => simp
  | cons a t ih =>
      cases b with
      | nil => simp
      | cons x bs =>
          rw [List.zip_cons_cons]
          rw [List.pairwise_cons] at h ⊢
          refine ⟨?_, ih bs h.2⟩
          intro qb hqb
          exact h.1 qb.1 (List.of_mem_zip hqb).1

/-- In a strictly increasing list `getLast?` and `max?` agree. -/
theorem getLast?_eq_max?_of_sorted (l : List ℕ) (h : l.Pairwise (· < ·)) :
    l.getLast? = l.max? := by
  induction l with
  | nil => rfl
  | cons a t ih =>
      cases t with
      | nil => simp
      | cons b t2 =>
          rw [List.pairwise_cons] at h
          rw [List.getLast?_cons_cons, ih h.2]
          obtain ⟨m, hm⟩ : ∃ m, (b :: t2).max? = some m := by
            cases hmax : (b :: t2).max? with
            | none => exact absurd hmax (by simp [List.max?_cons])
            | some m => exact ⟨m, rfl⟩
          have hmem : m ∈ b :: t2 := List.max?_mem (fun x y => max_choice x y) hm
          have ham : a < m := h.1 m hmem
          rw [hm, List.max?_cons, hm]
          show some m = some (Option.elim (some m) a (max a))
          rw [Option.elim, Nat.max_eq_right (Nat.le_of_lt ham)]

/-- C10.  For every interaction-bit string, the contact dictionary built
by `_find_main_main_contacts` has distinct lower-index keys (so each
lower index maps to at most one upper index) and looks each lower index
up to the maximum upper index among the flagged pairs for it: the pairs
are visited with ascending upper index for a fixed lower index and each
set bit overwrites the previous `contacts[i] = j`, so only the largest
flagged j survives and the earlier flagged contacts of i are dropped. -/
theorem c10_contact_dict_keeps_largest_flagged (interactionBits : List Bool)
    (numBeads i : ℕ) :
    ((find_main_main_contacts interactionBits numBeads).map Prod.fst).Nodup ∧
    List.lookup i (find_main_main_contacts interactionBits numBeads) =
      (flaggedUppers interactionBits numBeads i).max? := by
  have hdef : find_main_main_contacts interactionBits numBeads =
      ((interactionPairs numBeads).zip interactionBits).foldl contactFoldStep [] := rfl
  have hflag : flaggedUppers interactionBits numBeads i =
      ((interactionPairs numBeads).zip interactionBits).filterMap (flagSelect i) := by
    unfold flaggedUppers flaggedPairs
    rw [List.filterMap_filterMap]
    congr 1
    funext pb
    cases hb : pb.2 <;> simp [flagSelect, hb]
  constructor
  · rw [hdef]
    have hgen : ∀ (zl : List ((ℕ × ℕ) × Bool)) (d : List (ℕ × ℕ)),
        (d.map Prod.fst).Nodup → ((zl.foldl contactFoldStep d).map Prod.fst).Nodup := by
      intro zl
      induction zl with
      | nil => intro d hd; exact hd
      | cons pb rest ih =>
          intro d hd
          rw [List.foldl_cons]
          refine ih _ ?_
          unfold contactFoldStep
          by_cases hb : pb.2
          · rw [if_pos hb]
            exact nodup_dictSet d pb.1.1 pb.1.2 hd
          · rw [if_neg hb]
            exact hd
    exact hgen _ [] (by simp)
  · rw [hdef, hflag, lookup_foldl_contactFoldStep]
    have hsorted :
        (((interactionPairs numBeads).zip interactionBits).filterMap
          (flagSelect i)).Pairwise (· < ·) := by
      rw [List.pairwise_filterMap]
      have hz := pairwise_zip_fst (fun p q => p.1 = q.1 → p.2 < q.2)
        (interactionPairs numBeads) interactionBits
        (pairwise_interactionPairs numBeads)
      refine hz.imp ?_
      intro a b hab x hx y hy
      unfold flagSelect at hx hy
      by_cases hba : a.2
      · rw [if_pos hba] at hx
        by_cases hka : a.1.1 = i
        · rw [if_pos hka] at hx
          by_cases hbb : b.2
          · rw [if_pos hbb] at hy
            by_cases hkb : b.1.1 = i
            · rw [if_pos hkb] at hy
              rw [Option.mem_def, Option.some_inj] at hx hy
              rw [← hx, ← hy]
              exact hab (hka.trans hkb.symm)
            · rw [if_neg hkb] at hy
              cases hy
          · rw [if_neg hbb] at hy
            cases hy
        · rw [if_neg hka] at hx
          cases hx
      · rw [if_neg hba] at hx
        cases hx
    rw [← getLast?_eq_max?_of_sorted _ hsorted]
    cases (((interactionPairs numBeads).zip interactionBits).filterMap
      (flagSelect i)).getLast? <;> simp

/-- The grouping key of a term: its pair of masks. -/
def termKey (t : PauliTerm) : List Bool × List Bool :=
  (t.z, t.x)

/-- The hit condition of `addIntoGroups` is equality of keys. -/
theorem termKey_eq_iff (u t : PauliTerm) :
    (u.z = t.z ∧ u.x = t.x) ↔ termKey u = termKey t := by
  unfold termKey
  rw [Prod.mk.injEq]

/-- Keys after inserting one term into the groups. -/
theorem map_termKey_addIntoGroups (acc : List PauliTerm) (t : PauliTerm) :
    (addIntoGroups acc t).map termKey =
      if termKey t ∈ acc.map termKey then acc.map termKey
      else acc.map termKey ++ [termKey t] := by
  induction acc with
  | nil => simp [addIntoGroups]
  | cons u rest ih =>
      by_cases hc : u.z = t.z ∧ u.x = t.x
      · rw [addIntoGroups, if_pos hc]
        have hkey : termKey u = termKey t := (termKey_eq_iff u t).mp hc
        rw [List.map_cons, List.map_cons]
        rw [if_pos (by rw [← hkey]; exact List.mem_cons_self _ _)]
        rfl
      · rw [addIntoGroups, if_neg hc]
        have hkey : termKey u ≠ termKey t := fun h => hc ((termKey_eq_iff u t).mpr h)
        rw [List.map_cons, ih, List.map_cons]
        by_cases hmem : termKey t ∈ rest.map termKey
        · rw [if_pos hmem, if_pos (List.mem_cons_of_mem _ hmem)]
        · rw [if_neg hmem,
            if_neg (by rw [List.mem_cons]; rintro (h | h); exact hkey h.symm; exact hmem h),
            List.cons_append]

/-- Inserting a term whose key is absent appends it. -/
theorem addIntoGroups_append (acc : List PauliTerm) (t : PauliTerm)
    (h : termKey t ∉ acc.map termKey) : addIntoGroups acc t = acc ++ [t] := by
  induction acc with
  | nil => rfl
  | cons u rest ih =>
      rw [List.map_cons, List.mem_cons] at h
      push_neg at h
      rw [addIntoGroups,
        if_neg (fun hc => h.1 ((termKey_eq_iff u t).mp hc).symm), ih h.2,
        List.cons_append]

/-- Grouping keeps the keys distinct. -/
theorem nodup_map_termKey_foldl (l : List PauliTerm) (acc : List PauliTerm)
    (h : (acc.map termKey).Nodup) :
    ((l.foldl addIntoGroups acc).map termKey).Nodup := by
  induction l generalizing acc with
  | nil => exact h
  | cons t rest ih =>
      rw [List.foldl_cons]
      refine ih _ ?_
      rw [map_termKey_addIntoGroups]
      by_cases hmem : termKey t ∈ acc.map termKey
      · rw [if_pos hmem]
        exact h
      · rw [if_neg hmem, List.nodup_append]
        exact ⟨h, List.nodup_singleton _, by simpa using hmem⟩

/-- Grouping a list whose keys are already distinct is the identity. -/
theorem foldl_addIntoGroups_of_nodup (l acc : List PauliTerm)
    (h : ((acc ++ l).map termKey).Nodup) : l.foldl addIntoGroups acc = acc ++ l := by
  induction l generalizing acc with
  | nil => simp
  | cons t rest ih =>
      rw [List.foldl_cons]
      have hnot : termKey t ∉ acc.map termKey := by
        intro hmem
        rw [List.map_append, List.nodup_append] at h
        exact h.2.2 hmem (by simp)
      rw [addIntoGroups_append acc t hnot]
      have h2 : (((acc ++ [t]) ++ rest).map termKey).Nodup := by
        rw [List.append_assoc, List.singleton_append]
        exact h
      rw [ih (acc ++ [t]) h2, List.append_assoc, List.singleton_append]

/-- The simplified form of a list with distinct keys and no zero
coefficients is the list itself. -/
theorem simplifyTerms_of_canonical (l : List PauliTerm)
    (hnd : (l.map termKey).Nodup) (hnz : ∀ t ∈ l, t.c ≠ 0) :
    simplifyTerms l = l := by
  unfold simplifyTerms
  rw [foldl_addIntoGroups_of_nodup l [] (by simpa using hnd), List.nil_append]
  rw [List.filter_eq_self]
  intro t ht
  simpa using hnz t ht

/-- Clearing a position keeps the list length. -/
theorem length_preset_single (z : List Bool) (i : ℕ) :
    (preset_single_binary_val z i).length = z.length := by
  unfold preset_single_binary_val
  by_cases h : i < z.length
  · rw [if_pos h, List.length_set]
  · rw [if_neg h]

/-- The clearing fold keeps the list length. -/
theorem length_foldl_preset (idxs : List ℕ) (z : List Bool) :
    (idxs.foldl preset_single_binary_val z).length = z.length := by
  induction idxs generalizing z with
  | nil => rfl
  | cons i rest ih => rw [List.foldl_cons, ih, length_preset_single]

/-- Positions outside the clear list are untouched by the fold. -/
theorem foldl_preset_getElem?_notMem (idxs : List ℕ) (z : List Bool) (k : ℕ)
    (h : k ∉ idxs) : (idxs.foldl preset_single_binary_val z)[k]? = z[k]? := by
  induction idxs generalizing z with
  | nil => rfl
  | cons i rest ih =>
      rw [List.mem_cons] at h
      push_neg at h
      rw [List.foldl_cons, ih _ h.2]
      unfold preset_single_binary_val
      by_cases hlen : i < z.length
      · rw [if_pos hlen, List.getElem?_set_ne (fun he => h.1 he.symm)]
      · rw [if_neg hlen]

/-- Positions of the clear list that exist read `some false` after the
fold. -/
theorem foldl_preset_getElem?_mem (idxs : List ℕ) (z : List Bool) (k : ℕ)
    (hk : k ∈ idxs) (hlt : k < z.length) :
    (idxs.foldl preset_single_binary_val z)[k]? = some false := by
  have hlen := length_foldl_preset idxs z
  have hget := foldl_preset_getD idxs z k hk
  rw [List.getD_eq_getElem?_getD] at hget
  cases hval : (idxs.foldl preset_single_binary_val z)[k]? with
  | none =>
      rw [List.getElem?_eq_none_iff] at hval
      omega
  | some b =>
      rw [hval] at hget
      simp only [Option.getD_some] at hget
      rw [hget]

/-- Clearing the fixed positions is idempotent at the list level. -/
theorem preset_binary_vals_idem (z : List Bool) (flag : Bool) :
    preset_binary_vals (preset_binary_vals z flag) flag =
      preset_binary_vals z flag := by
  apply List.ext_getElem?
  intro k
  unfold preset_binary_vals
  set idxs := MAIN_CHAIN_FIXED_POSITIONS ++
    (if flag then [] else [MAIN_CHAIN_FIFTH_FIXED_POSITION]) with hidxs
  by_cases hk : k ∈ idxs
  · by_cases hlt : k < z.length
    · rw [foldl_preset_getElem?_mem idxs _ k hk
        (by rw [length_foldl_preset]; exact hlt),
        foldl_preset_getElem?_mem idxs z k hk hlt]
    · have h1 : z.length ≤ k := Nat.le_of_not_lt hlt
      rw [List.getElem?_eq_none_iff.mpr, List.getElem?_eq_none_iff.mpr]
      · rw [length_foldl_preset]
        exact h1
      · rw [length_foldl_preset, length_foldl_preset]
        exact h1
  · rw [foldl_preset_getElem?_notMem idxs _ k hk]

/-- Clearing fixed positions of the all-false mask changes nothing. -/
theorem preset_binary_vals_zeros (n : ℕ) (flag : Bool) :
    preset_binary_vals (zeros n) flag = zeros n := by
  apply List.ext_getElem?
  intro k
  unfold preset_binary_vals
  set idxs := MAIN_CHAIN_FIXED_POSITIONS ++
    (if flag then [] else [MAIN_CHAIN_FIFTH_FIXED_POSITION]) with hidxs
  by_cases hk : k ∈ idxs
  · by_cases hlt : k < n
    · rw [foldl_preset_getElem?_mem idxs _ k hk (by simpa [zeros] using hlt)]
      rw [List.getElem?_eq_getElem (by simpa [zeros] using hlt)]
      simp [zeros]
    · rw [List.getElem?_eq_none_iff.mpr, List.getElem?_eq_none_iff.mpr]
      · simpa [zeros] using Nat.le_of_not_lt hlt
      · rw [length_foldl_preset]
        simpa [zeros] using Nat.le_of_not_lt hlt
  · rw [foldl_preset_getElem?_notMem idxs _ k hk]

/-- The sign rules do nothing on a term whose fixed Z bits are already
cleared. -/
theorem calc_updated_coeffs_of_preset (z0 : List Bool) (c : ℚ) (flag : Bool) :
    calc_updated_coeffs (preset_binary_vals z0 flag) c flag = c := by
  have hA : ¬ (SIGN_FLIP_SECOND_QUBIT_INDEX < (preset_binary_vals z0 flag).length ∧
      (preset_binary_vals z0 flag).getD SIGN_FLIP_SECOND_QUBIT_INDEX false = true) := by
    rintro ⟨-, hc⟩
    rw [preset_binary_vals_getD z0 flag SIGN_FLIP_SECOND_QUBIT_INDEX (by decide)] at hc
    exact Bool.noConfusion hc
  have hB : ¬ (flag = false ∧
      (SIGN_FLIP_SIXTH_QUBIT_INDEX + 1 < (preset_binary_vals z0 flag).length ∧
        (preset_binary_vals z0 flag).getD SIGN_FLIP_SIXTH_QUBIT_INDEX false = true)) := by
    rintro ⟨-, -, hc⟩
    rw [preset_binary_vals_getD z0 flag SIGN_FLIP_SIXTH_QUBIT_INDEX (by decide)] at hc
    exact Bool.noConfusion hc
  simp only [calc_updated_coeffs, if_neg hA, if_neg hB]

/-- The qubit count survives `simplify`. -/
theorem simplifyOp_numQubits (n : ℕ) (l : List PauliTerm) :
    (simplifyOp ⟨n, l⟩).numQubits = n := by
  unfold simplifyOp
  by_cases h : (simplifyTerms l).isEmpty
  · rw [if_pos h]
  · rw [if_neg h]

/-- C6.  `fix_qubits` is idempotent for every operator and either value of
the side-chain flag: after one pass every term has its fixed Z bits
cleared, so the second pass clears nothing, flips no sign, and
`simplify` of an already canonical list is the identity. -/
theorem c6_fix_qubits_idempotent (op : SparsePauliOp) (flag : Bool) :
    fix_qubits (fix_qubits op flag) flag = fix_qubits op flag := by
  obtain ⟨mapped, hq, hclear⟩ : ∃ mapped,
      fix_qubits op flag = simplifyOp ⟨op.numQubits, mapped⟩ ∧
      ∀ u ∈ mapped, ∃ z0, u.z = preset_binary_vals z0 flag := by
    unfold fix_qubits
    by_cases hone : op.terms.length = 1
    · rw [if_pos hone]
      refine ⟨_, rfl, ?_⟩
      intro u hu
      rcases List.mem_map.mp hu with ⟨v, -, hv⟩
      exact ⟨v.z, by rw [← hv]⟩
    · rw [if_neg hone]
      refine ⟨_, rfl, ?_⟩
      intro u hu
      rcases List.mem_map.mp hu with ⟨v, -, hv⟩
      exact ⟨v.z, by rw [← hv]⟩
  set n := op.numQubits with hn
  rw [hq]
  set nz := simplifyTerms mapped with hnz
  have hterm_clear : ∀ t ∈ nz, ∃ z0, t.z = preset_binary_vals z0 flag := by
    intro t ht
    rcases mem_simplifyTerms mapped t ht with ⟨u, hu, hz, -⟩
    rcases hclear u hu with ⟨z0, hz0⟩
    exact ⟨z0, hz.trans hz0⟩
  have hterm_nz : ∀ t ∈ nz, t.c ≠ 0 := by
    intro t ht
    rw [hnz] at ht
    unfold simplifyTerms at ht
    have := List.of_mem_filter ht
    simpa using this
  have hnd : (nz.map termKey).Nodup := by
    have h1 : ((mapped.foldl addIntoGroups []).map termKey).Nodup :=
      nodup_map_termKey_foldl mapped [] (by simp)
    have h2 : nz.Sublist (mapped.foldl addIntoGroups []) := by
      rw [hnz]
      unfold simplifyTerms
      exact List.filter_sublist _
    exact List.Nodup.sublist (List.Sublist.map termKey h2) h1
  by_cases hemp : nz.isEmpty
  · have hqterms : simplifyOp ⟨n, mapped⟩ = ⟨n, [zeroTerm n]⟩ := by
      unfold simplifyOp
      rw [← hnz, if_pos hemp]
    rw [hqterms]
    unfold fix_qubits
    rw [if_pos (show (SparsePauliOp.mk n [zeroTerm n]).terms.length = 1 from rfl)]
    show simplifyOp ⟨n,
      [⟨preset_binary_vals (zeroTerm n).z flag, (zeroTerm n).x, (zeroTerm n).c⟩]⟩ =
        ⟨n, [zeroTerm n]⟩
    have hz : preset_binary_vals (zeroTerm n).z flag = (zeroTerm n).z :=
      preset_binary_vals_zeros n flag
    rw [hz]
    have hsimp : simplifyTerms [zeroTerm n] = [] := rfl
    unfold simplifyOp
    rw [if_pos (show (simplifyTerms [zeroTerm n]).isEmpty = true by rw [hsimp]; rfl)]
  · have hqterms : simplifyOp ⟨n, mapped⟩ = ⟨n, nz⟩ := by
      unfold simplifyOp
      rw [← hnz, if_neg hemp]
    rw [hqterms]
    by_cases hone2 : nz.length = 1
    · match nz, hone2, hterm_clear, hterm_nz with
      | [t], _, hterm_clear, hterm_nz =>
          unfold fix_qubits
          rw [if_pos (show (SparsePauliOp.mk n [t]).terms.length = 1 from rfl)]
          show simplifyOp ⟨n, [⟨preset_binary_vals t.z flag, t.x, t.c⟩]⟩ = ⟨n, [t]⟩
          rcases hterm_clear t (List.mem_singleton_self t) with ⟨z0, hz0⟩
          have hz : preset_binary_vals t.z flag = t.z := by
            rw [hz0, preset_binary_vals_idem]
          rw [hz]
          have hsimp : simplifyTerms [t] = [t] :=
            simplifyTerms_of_canonical [t] (by simp)
              (fun u hu => by
                rw [List.mem_singleton] at hu
                rw [hu]
                exact hterm_nz t (List.mem_singleton_self t))
          unfold simplifyOp
          rw [if_neg (show ¬ (simplifyTerms [t]).isEmpty = true by rw [hsimp]; simp)]
          rw [hsimp]
    · unfold fix_qubits
      rw [if_neg hone2]
      have hmap : nz.map (fun t =>
          (⟨preset_binary_vals t.z flag, t.x,
            calc_updated_coeffs t.z t.c flag⟩ : PauliTerm)) = nz := by
        have hcongr := List.map_congr_left (l := nz)
          (f := fun t => (⟨preset_binary_vals t.z flag, t.x,
            calc_updated_coeffs t.z t.c flag⟩ : PauliTerm)) (g := id) ?_
        · rw [hcongr, List.map_id]
        · intro t ht
          rcases hterm_clear t ht with ⟨z0, hz0⟩
          show (⟨preset_binary_vals t.z flag, t.x,
            calc_updated_coeffs t.z t.c flag⟩ : PauliTerm) = t
          conv_lhs => rw [hz0, preset_binary_vals_idem, calc_updated_coeffs_of_preset]
          rw [← hz0]
      show simplifyOp ⟨n, nz.map _⟩ = ⟨n, nz⟩
      rw [hmap]
      unfold simplifyOp
      rw [simplifyTerms_of_canonical nz hnd hterm_nz, if_neg hemp]

/-- C6, witness: idempotence evaluated on a concrete two-term operator
with a sign flip. -/
theorem c6_witness :
    fix_qubits (fix_qubits ⟨7, [⟨zMask 7 [1], zeros 7, 1⟩,
        ⟨zMask 7 [1, 6], zeros 7, 1⟩]⟩ false) false =
      fix_qubits ⟨7, [⟨zMask 7 [1], zeros 7, 1⟩, ⟨zMask 7 [1, 6], zeros 7, 1⟩]⟩
        false :=
  c6_fix_qubits_idempotent ⟨7, [⟨zMask 7 [1], zeros 7, 1⟩,
    ⟨zMask 7 [1, 6], zeros 7, 1⟩]⟩ false

/-- Zipping two maps over the same list is a map of the combined
function. -/
theorem zipWith_map_same {α β γ δ : Type} (f : β → γ → δ) (g : α → β) (h : α → γ)
    (l : List α) :
    List.zipWith f (l.map g) (l.map h) = l.map (fun x => f (g x) (h x)) := by
  induction l with
  | nil => rfl
  | cons a t ih => simp [ih]

/-- The empty Z-index set gives the all-false mask. -/
theorem zMask_nil (n : ℕ) : zMask n [] = zeros n := by
  unfold zMask zeros
  rw [show (fun k => List.contains [] k) = (fun _ : ℕ => false) from rfl]
  rw [List.map_const', List.length_range]

/-- Masks have the register width. -/
theorem zMask_length (n : ℕ) (S : List ℕ) : (zMask n S).length = n := by
  unfold zMask
  rw [List.length_map, List.length_range]

/-- The xor of two masks is the mask of the pointwise xor of the index
indicators. -/
theorem maskXor (n : ℕ) (S T U : List ℕ)
    (hpt : ∀ k, xor (S.contains k) (T.contains k) = U.contains k) :
    List.zipWith xor (zMask n S) (zMask n T) = zMask n U := by
  unfold zMask
  rw [zipWith_map_same]
  exact List.map_congr_left (fun k _ => hpt k)

/-- Reading a mask below the register width gives the index indicator. -/
theorem zMask_getD (n : ℕ) (S : List ℕ) (k : ℕ) (h : k < n) :
    (zMask n S).getD k false = S.contains k := by
  unfold zMask
  rw [List.getD_eq_getElem?_getD, List.getElem?_map, List.getElem?_range h]
  rfl

/-- The bitwise and with the all-false mask is all false. -/
theorem maskAnd_zeros (l : List Bool) (n : ℕ) (h : l.length = n) :
    List.zipWith and (zeros n) l = zeros n := by
  induction l generalizing n with
  | nil =>
      subst h
      rfl
  | cons x t ih =>
      subst h
      show List.zipWith and (false :: zeros t.length) (x :: t) = zeros (t.length + 1)
      rw [List.zipWith_cons_cons]
      rw [show and false x = false from rfl]
      show false :: List.zipWith and (zeros t.length) t = false :: zeros t.length
      rw [ih t.length rfl]

/-- The all-false mask contains no set bit. -/
theorem count_true_zeros (n : ℕ) : (zeros n).count true = 0 := by
  unfold zeros
  simp [List.count_replicate]

/-- Masks that disagree at an in-range index differ. -/
theorem zMask_ne (n : ℕ) (S T : List ℕ) (k : ℕ) (hk : k < n)
    (hST : S.contains k ≠ T.contains k) : zMask n S ≠ zMask n T := by
  intro h
  have h2 := congrArg (fun l => l.getD k false) h
  simp only at h2
  rw [zMask_getD n S k hk, zMask_getD n T k hk] at h2
  exact hST h2

/-- A mask with an in-range set bit differs from the all-false mask. -/
theorem zMask_ne_zeros (n : ℕ) (S : List ℕ) (k : ℕ) (hk : k < n)
    (hSk : S.contains k = true) : zMask n S ≠ zeros n := by
  rw [← zMask_nil n]
  exact zMask_ne n S [] k hk (by rw [hSk]; simp)

/-- Sum of the coefficients of a term list, an invariant of `simplify`. -/
def totalCoeff (l : List PauliTerm) : ℚ :=
  (l.map (fun t => t.c)).sum

/-- Inserting a term into the groups adds its coefficient to the total. -/
theorem totalCoeff_addIntoGroups (acc : List PauliTerm) (t : PauliTerm) :
    totalCoeff (addIntoGroups acc t) = totalCoeff acc + t.c := by
  induction acc with
  | nil => simp [addIntoGroups, totalCoeff]
  | cons u rest ih =>
      by_cases hc : u.z = t.z ∧ u.x = t.x
      · rw [addIntoGroups, if_pos hc]
        simp only [totalCoeff, List.map_cons, List.sum_cons]
        ring
      · rw [addIntoGroups, if_neg hc]
        simp only [totalCoeff, List.map_cons, List.sum_cons] at ih ⊢
        rw [ih]
        ring

/-- Grouping preserves the coefficient total. -/
theorem totalCoeff_foldl (l acc : List PauliTerm) :
    totalCoeff (l.foldl addIntoGroups acc) = totalCoeff acc + totalCoeff l := by
  induction l generalizing acc with
  | nil => simp [totalCoeff]
  | cons t rest ih =>
      rw [List.foldl_cons, ih, totalCoeff_addIntoGroups]
      simp only [totalCoeff, List.map_cons, List.sum_cons]
      ring

/-- Dropping the zero-coefficient groups preserves the total. -/
theorem totalCoeff_filter (l : List PauliTerm) :
    totalCoeff (l.filter (fun t => t.c ≠ 0)) = totalCoeff l := by
  induction l with
  | nil => rfl
  | cons t rest ih =>
      by_cases hc : t.c = 0
      · rw [List.filter_cons, if_neg (by simp [hc])]
        simp only [totalCoeff, List.map_cons, List.sum_cons]
        rw [hc]
        simpa [totalCoeff] using ih
      · rw [List.filter_cons, if_pos (by simp [hc])]
        simp only [totalCoeff, List.map_cons, List.sum_cons]
        simp only [totalCoeff] at ih
        rw [ih]

/-- The coefficient total is an invariant of the full `simplify`. -/
theorem totalCoeff_simplifyOp (op : SparsePauliOp) :
    totalCoeff (simplifyOp op).terms = totalCoeff op.terms := by
  have hg : totalCoeff (simplifyTerms op.terms) = totalCoeff op.terms := by
    unfold simplifyTerms
    rw [totalCoeff_filter, totalCoeff_foldl]
    simp [totalCoeff]
  unfold simplifyOp
  by_cases hemp : (simplifyTerms op.terms).isEmpty
  · rw [if_pos hemp]
    have h0 : simplifyTerms op.terms = [] := List.isEmpty_iff.mp hemp
    rw [h0] at hg
    show totalCoeff [zeroTerm op.numQubits] = _
    rw [← hg]
    simp [totalCoeff, zeroTerm]
  · rw [if_neg hemp]
    exact hg

/-- C5, counterexample.  In the sparse encoding the four turn functions
are the one-hot turn indicators themselves, and their sum simplifies to
2*I minus half the sum of the four Z operators - not to the identity: the
coefficient total of the sum is 0 while the identity has total 1.
Instantiated at the first bead of a five-bead chain (16 turn qubits). -/
theorem c5_sparse_sum_counterexample :
    simplifyOp (addOp (addOp (addOp
        (sparseTurnFun 5 0 TurnDirection.DIR_0)
        (sparseTurnFun 5 0 TurnDirection.DIR_1))
        (sparseTurnFun 5 0 TurnDirection.DIR_2))
        (sparseTurnFun 5 0 TurnDirection.DIR_3)) ≠
      build_identity_op (numTurnQubits ConformationEncoding.sparse 5) 1 := by
  intro h
  have h2 := congrArg (fun op => totalCoeff op.terms) h
  simp only at h2
  rw [totalCoeff_simplifyOp] at h2
  norm_num [totalCoeff, addOp, sparseTurnFun, bead_turn_qubit, build_turn_qubit,
    scalarMul, subOp, zOnWire, build_identity_op, NORM_FACTOR, numTurnQubits,
    ConformationEncoding.qubitsPerTurn, TurnDirection.val] at h2

/-- The all-false mask has the register width. -/
theorem zeros_length (n : ℕ) : (zeros n).length = n :=
  List.length_replicate n false

/-- Xor table: all-false against all-false. -/
theorem xorm_00 (n : ℕ) : List.zipWith xor (zeros n) (zeros n) = zeros n := by
  rw [← zMask_nil n]
  exact maskXor n [] [] [] (fun k => Bool.false_xor _)

/-- Xor table: all-false on the left is neutral. -/
theorem xorm_0m (n : ℕ) (S : List ℕ) :
    List.zipWith xor (zeros n) (zMask n S) = zMask n S := by
  conv_lhs => rw [← zMask_nil n]
  exact maskXor n [] S S (fun k => Bool.false_xor _)

/-- Xor table: all-false on the right is neutral. -/
theorem xorm_m0 (n : ℕ) (S : List ℕ) :
    List.zipWith xor (zMask n S) (zeros n) = zMask n S := by
  conv_lhs => rw [show zeros n = zMask n [] from (zMask_nil n).symm]
  exact maskXor n S [] S (fun k => Bool.xor_false _)

/-- Xor table: any mask against itself vanishes. -/
theorem xorm_self (n : ℕ) (S : List ℕ) :
    List.zipWith xor (zMask n S) (zMask n S) = zeros n := by
  rw [← zMask_nil n]
  exact maskXor n S S [] (fun k => Bool.xor_self _)

/-- Xor table: two distinct single wires give the double wire. -/
theorem xorm_ab (n a b : ℕ) (hab : a ≠ b) :
    List.zipWith xor (zMask n [a]) (zMask n [b]) = zMask n [a, b] :=
  maskXor n [a] [b] [a, b] (by
    intro k
    by_cases hka : k = a <;> by_cases hkb : k = b <;> simp [hka, hkb, hab] <;> tauto)

/-- Xor table: two distinct single wires, reversed operands. -/
theorem xorm_ba (n a b : ℕ) (hab : a ≠ b) :
    List.zipWith xor (zMask n [b]) (zMask n [a]) = zMask n [a, b] :=
  maskXor n [b] [a] [a, b] (by
    intro k
    by_cases hka : k = a <;> by_cases hkb : k = b <;> simp [hka, hkb, hab] <;> tauto)

/-- Xor table: first wire against the double wire gives the second. -/
theorem xorm_a_ab (n a b : ℕ) (hab : a ≠ b) :
    List.zipWith xor (zMask n [a]) (zMask n [a, b]) = zMask n [b] :=
  maskXor n [a] [a, b] [b] (by
    intro k
    by_cases hka : k = a <;> by_cases hkb : k = b <;>
      simp [hka, hkb, hab, Ne.symm hab] <;> tauto)

/-- Xor table: double wire against the first gives the second. -/
theorem xorm_ab_a (n a b : ℕ) (hab : a ≠ b) :
    List.zipWith xor (zMask n [a, b]) (zMask n [a]) = zMask n [b] :=
  maskXor n [a, b] [a] [b] (by
    intro k
    by_cases hka : k = a <;> by_cases hkb : k = b <;>
      simp [hka, hkb, hab, Ne.symm hab] <;> tauto)

/-- Xor table: second wire against the double wire gives the first. -/
theorem xorm_b_ab (n a b : ℕ) (hab : a ≠ b) :
    List.zipWith xor (zMask n [b]) (zMask n [a, b]) = zMask n [a] :=
  maskXor n [b] [a, b] [a] (by
    intro k
    by_cases hka : k = a <;> by_cases hkb : k = b <;>
      simp [hka, hkb, hab, Ne.symm hab] <;> tauto)

/-- Xor table: double wire against the second gives the first. -/
theorem xorm_ab_b (n a b : ℕ) (hab : a ≠ b) :
    List.zipWith xor (zMask n [a, b]) (zMask n [b]) = zMask n [a] :=
  maskXor n [a, b] [b] [a] (by
    intro k
    by_cases hka : k = a <;> by_cases hkb : k = b <;>
      simp [hka, hkb, hab, Ne.symm hab] <;> tauto)

/-- Phase table: the and of an all-false X row with any mask is empty. -/
theorem handm (n : ℕ) (S : List ℕ) :
    List.zipWith and (zeros n) (zMask n S) = zeros n :=
  maskAnd_zeros _ n (zMask_length n S)

/-- Phase table: the and of two all-false rows is empty. -/
theorem hand0 (n : ℕ) : List.zipWith and (zeros n) (zeros n) = zeros n :=
  maskAnd_zeros _ n (zeros_length n)

/-- C5 evaluation: the dense turn function for direction 0 in closed
form: the projector (1/4)(I + Za + Zb + Za Zb) on the bead's two turn
wires. -/
theorem dense_turn_fun_0_eq (L i : ℕ) (hi : i < L - 1) :
    dense_turn_fun_0 L i =
      ⟨(L - 1) * 2,
        [⟨zeros ((L - 1) * 2), zeros ((L - 1) * 2), 1 / 4⟩,
         ⟨zMask ((L - 1) * 2) [2 * i + 1], zeros ((L - 1) * 2), 1 / 4⟩,
         ⟨zMask ((L - 1) * 2) [2 * i], zeros ((L - 1) * 2), 1 / 4⟩,
         ⟨zMask ((L - 1) * 2) [2 * i, 2 * i + 1], zeros ((L - 1) * 2), 1 / 4⟩]⟩ := by
  set n := (L - 1) * 2 with hn
  have ha : 2 * i < n := by omega
  have hb : 2 * i + 1 < n := by omega
  have hab : 2 * i ≠ 2 * i + 1 := by omega
  have hnea : zMask n [2 * i] ≠ zeros n := zMask_ne_zeros n _ _ ha (by simp)
  have hneb : zMask n [2 * i + 1] ≠ zeros n := zMask_ne_zeros n _ _ hb (by simp)
  have hneab : zMask n [2 * i, 2 * i + 1] ≠ zeros n :=
    zMask_ne_zeros n _ (2 * i) ha (by simp)
  have hne_ab : zMask n [2 * i] ≠ zMask n [2 * i + 1] :=
    zMask_ne n _ _ (2 * i) ha (by simp [hab])
  have hne_a_ab : zMask n [2 * i] ≠ zMask n [2 * i, 2 * i + 1] :=
    zMask_ne n _ _ (2 * i + 1) hb (by simp [hab, Ne.symm hab])
  have hne_b_ab : zMask n [2 * i + 1] ≠ zMask n [2 * i, 2 * i + 1] :=
    zMask_ne n _ _ (2 * i) ha (by simp [hab, Ne.symm hab])
  have hzz : List.replicate (zeros n).length false = zeros n := by
    rw [zeros_length]
    rfl
  norm_num [dense_turn_fun_0, simplifyOp, simplifyTerms, composeOp, subOp, addOp,
    scalarMul, build_turn_qubit, zOnWire, build_identity_op, NORM_FACTOR, mulTerm,
    addIntoGroups, Function.comp, bead_turn_qubit, numTurnQubits,
    ConformationEncoding.qubitsPerTurn, hzz,
    xorm_00 n, xorm_0m n, xorm_m0 n, xorm_self n,
    xorm_ab n _ _ hab, xorm_ba n _ _ hab, xorm_a_ab n _ _ hab,
    xorm_ab_a n _ _ hab, xorm_b_ab n _ _ hab, xorm_ab_b n _ _ hab,
    handm n, hand0 n, count_true_zeros,
    hnea, hneb, hneab, hne_ab, hne_a_ab, hne_b_ab,
    Ne.symm hnea, Ne.symm hneb, Ne.symm hneab, Ne.symm hne_ab,
    Ne.symm hne_a_ab, Ne.symm hne_b_ab]

/-- C5 evaluation: the dense turn function for direction 1 in closed form: (1/4)(I + Za - Zb - Za Zb) on the bead's two turn wires. -/
theorem dense_turn_fun_1_eq (L i : ℕ) (hi : i < L - 1) :
    dense_turn_fun_1 L i =
      ⟨(L - 1) * 2,
        [⟨zeros ((L - 1) * 2), zeros ((L - 1) * 2), 1 / 4⟩,
         ⟨zMask ((L - 1) * 2) [2 * i + 1], zeros ((L - 1) * 2), -(1 / 4)⟩,
         ⟨zMask ((L - 1) * 2) [2 * i], zeros ((L - 1) * 2), 1 / 4⟩,
         ⟨zMask ((L - 1) * 2) [2 * i, 2 * i + 1], zeros ((L - 1) * 2), -(1 / 4)⟩]⟩ := by
  set n := (L - 1) * 2 with hn
  have ha : 2 * i < n := by omega
  have hb : 2 * i + 1 < n := by omega
  have hab : 2 * i ≠ 2 * i + 1 := by omega
  have hnea : zMask n [2 * i] ≠ zeros n := zMask_ne_zeros n _ _ ha (by simp)
  have hneb : zMask n [2 * i + 1] ≠ zeros n := zMask_ne_zeros n _ _ hb (by simp)
  have hneab : zMask n [2 * i, 2 * i + 1] ≠ zeros n :=
    zMask_ne_zeros n _ (2 * i) ha (by simp)
  have hne_ab : zMask n [2 * i] ≠ zMask n [2 * i + 1] :=
    zMask_ne n _ _ (2 * i) ha (by simp [hab])
  have hne_a_ab : zMask n [2 * i] ≠ zMask n [2 * i, 2 * i + 1] :=
    zMask_ne n _ _ (2 * i + 1) hb (by simp [hab, Ne.symm hab])
  have hne_b_ab : zMask n [2 * i + 1] ≠ zMask n [2 * i, 2 * i + 1] :=
    zMask_ne n _ _ (2 * i) ha (by simp [hab, Ne.symm hab])
  have hzz : List.replicate (zeros n).length false = zeros n := by
    rw [zeros_length]
    rfl
  have hza : List.replicate (zMask ((L - 1) * 2) [2 * i]).length false = zeros n := by
    rw [zMask_length]
    rfl
  have hzb : List.replicate (zMask ((L - 1) * 2) [2 * i + 1]).length false = zeros n := by
    rw [zMask_length]
    rfl
  have hzab : List.replicate (zMask ((L - 1) * 2) [2 * i, 2 * i + 1]).length false = zeros n := by
    rw [zMask_length]
    rfl
  norm_num [dense_turn_fun_1, simplifyOp, simplifyTerms, composeOp, subOp, addOp,
    scalarMul, build_turn_qubit, zOnWire, build_identity_op, NORM_FACTOR, mulTerm,
    addIntoGroups, Function.comp, bead_turn_qubit, numTurnQubits,
    ConformationEncoding.qubitsPerTurn, hzz, hza, hzb, hzab,
    xorm_00 n, xorm_0m n, xorm_m0 n, xorm_self n,
    xorm_ab n _ _ hab, xorm_ba n _ _ hab, xorm_a_ab n _ _ hab,
    xorm_ab_a n _ _ hab, xorm_b_ab n _ _ hab, xorm_ab_b n _ _ hab,
    handm n, hand0 n, count_true_zeros,
    hnea, hneb, hneab, hne_ab, hne_a_ab, hne_b_ab,
    Ne.symm hnea, Ne.symm hneb, Ne.symm hneab, Ne.symm hne_ab,
    Ne.symm hne_a_ab, Ne.symm hne_b_ab]

/-- C5 evaluation: the dense turn function for direction 2 in closed form: (1/4)(I - Za + Zb - Za Zb) on the bead's two turn wires. -/
theorem dense_turn_fun_2_eq (L i : ℕ) (hi : i < L - 1) :
    dense_turn_fun_2 L i =
      ⟨(L - 1) * 2,
        [⟨zeros ((L - 1) * 2), zeros ((L - 1) * 2), 1 / 4⟩,
         ⟨zMask ((L - 1) * 2) [2 * i], zeros ((L - 1) * 2), -(1 / 4)⟩,
         ⟨zMask ((L - 1) * 2) [2 * i + 1], zeros ((L - 1) * 2), 1 / 4⟩,
         ⟨zMask ((L - 1) * 2) [2 * i, 2 * i + 1], zeros ((L - 1) * 2), -(1 / 4)⟩]⟩ := by
  set n := (L - 1) * 2 with hn
  have ha : 2 * i < n := by omega
  have hb : 2 * i + 1 < n := by omega
  have hab : 2 * i ≠ 2 * i + 1 := by omega
  have hnea : zMask n [2 * i] ≠ zeros n := zMask_ne_zeros n _ _ ha (by simp)
  have hneb : zMask n [2 * i + 1] ≠ zeros n := zMask_ne_zeros n _ _ hb (by simp)
  have hneab : zMask n [2 * i, 2 * i + 1] ≠ zeros n :=
    zMask_ne_zeros n _ (2 * i) ha (by simp)
  have hne_ab : zMask n [2 * i] ≠ zMask n [2 * i + 1] :=
    zMask_ne n _ _ (2 * i) ha (by simp [hab])
  have hne_a_ab : zMask n [2 * i] ≠ zMask n [2 * i, 2 * i + 1] :=
    zMask_ne n _ _ (2 * i + 1) hb (by simp [hab, Ne.symm hab])
  have hne_b_ab : zMask n [2 * i + 1] ≠ zMask n [2 * i, 2 * i + 1] :=
    zMask_ne n _ _ (2 * i) ha (by simp [hab, Ne.symm hab])
  have hzz : List.replicate (zeros n).length false = zeros n := by
    rw [zeros_length]
    rfl
  have hza : List.replicate (zMask ((L - 1) * 2) [2 * i]).length false = zeros n := by
    rw [zMask_length]
    rfl
  have hzb : List.replicate (zMask ((L - 1) * 2) [2 * i + 1]).length false = zeros n := by
    rw [zMask_length]
    rfl
  have hzab : List.replicate (zMask ((L - 1) * 2) [2 * i, 2 * i + 1]).length false = zeros n := by
    rw [zMask_length]
    rfl
  norm_num [dense_turn_fun_2, simplifyOp, simplifyTerms, composeOp, subOp, addOp,
    scalarMul, build_turn_qubit, zOnWire, build_identity_op, NORM_FACTOR, mulTerm,
    addIntoGroups, Function.comp, bead_turn_qubit, numTurnQubits,
    ConformationEncoding.qubitsPerTurn, hzz, hza, hzb, hzab,
    xorm_00 n, xorm_0m n, xorm_m0 n, xorm_self n,
    xorm_ab n _ _ hab, xorm_ba n _ _ hab, xorm_a_ab n _ _ hab,
    xorm_ab_a n _ _ hab, xorm_b_ab n _ _ hab, xorm_ab_b n _ _ hab,
    handm n, hand0 n, count_true_zeros,
    hnea, hneb, hneab, hne_ab, hne_a_ab, hne_b_ab,
    Ne.symm hnea, Ne.symm hneb, Ne.symm hneab, Ne.symm hne_ab,
    Ne.symm hne_a_ab, Ne.symm hne_b_ab]

/-- C5 evaluation: the dense turn function for direction 3 in closed form: (1/4)(I - Za - Zb + Za Zb) on the bead's two turn wires. -/
theorem dense_turn_fun_3_eq (L i : ℕ) (hi : i < L - 1) :
    dense_turn_fun_3 L i =
      ⟨(L - 1) * 2,
        [⟨zeros ((L - 1) * 2), zeros ((L - 1) * 2), 1 / 4⟩,
         ⟨zMask ((L - 1) * 2) [2 * i + 1], zeros ((L - 1) * 2), -(1 / 4)⟩,
         ⟨zMask ((L - 1) * 2) [2 * i], zeros ((L - 1) * 2), -(1 / 4)⟩,
         ⟨zMask ((L - 1) * 2) [2 * i, 2 * i + 1], zeros ((L - 1) * 2), 1 / 4⟩]⟩ := by
  set n := (L - 1) * 2 with hn
  have ha : 2 * i < n := by omega
  have hb : 2 * i + 1 < n := by omega
  have hab : 2 * i ≠ 2 * i + 1 := by omega
  have hnea : zMask n [2 * i] ≠ zeros n := zMask_ne_zeros n _ _ ha (by simp)
  have hneb : zMask n [2 * i + 1] ≠ zeros n := zMask_ne_zeros n _ _ hb (by simp)
  have hneab : zMask n [2 * i, 2 * i + 1] ≠ zeros n :=
    zMask_ne_zeros n _ (2 * i) ha (by simp)
  have hne_ab : zMask n [2 * i] ≠ zMask n [2 * i + 1] :=
    zMask_ne n _ _ (2 * i) ha (by simp [hab])
  have hne_a_ab : zMask n [2 * i] ≠ zMask n [2 * i, 2 * i + 1] :=
    zMask_ne n _ _ (2 * i + 1) hb (by simp [hab, Ne.symm hab])
  have hne_b_ab : zMask n [2 * i + 1] ≠ zMask n [2 * i, 2 * i + 1] :=
    zMask_ne n _ _ (2 * i) ha (by simp [hab, Ne.symm hab])
  have hzz : List.replicate (zeros n).length false = zeros n := by
    rw [zeros_length]
    rfl
  have hza : List.replicate (zMask ((L - 1) * 2) [2 * i]).length false = zeros n := by
    rw [zMask_length]
    rfl
  have hzb : List.replicate (zMask ((L - 1) * 2) [2 * i + 1]).length false = zeros n := by
    rw [zMask_length]
    rfl
  have hzab : List.replicate (zMask ((L - 1) * 2) [2 * i, 2 * i + 1]).length false = zeros n := by
    rw [zMask_length]
    rfl
  norm_num [dense_turn_fun_3, simplifyOp, simplifyTerms, composeOp, subOp, addOp,
    scalarMul, build_turn_qubit, zOnWire, build_identity_op, NORM_FACTOR, mulTerm,
    addIntoGroups, Function.comp, bead_turn_qubit, numTurnQubits,
    ConformationEncoding.qubitsPerTurn, hzz, hza, hzb, hzab,
    xorm_00 n, xorm_0m n, xorm_m0 n, xorm_self n,
    xorm_ab n _ _ hab, xorm_ba n _ _ hab, xorm_a_ab n _ _ hab,
    xorm_ab_a n _ _ hab, xorm_b_ab n _ _ hab, xorm_ab_b n _ _ hab,
    handm n, hand0 n, count_true_zeros,
    hnea, hneb, hneab, hne_ab, hne_a_ab, hne_b_ab,
    Ne.symm hnea, Ne.symm hneb, Ne.symm hneab, Ne.symm hne_ab,
    Ne.symm hne_a_ab, Ne.symm hne_b_ab]

/-- C5 evaluation: the four dense turn functions sum to the identity
after simplification. -/
theorem dense_turn_sum_eq (L i : ℕ) (hi : i < L - 1) :
    simplifyOp (addOp (addOp (addOp
        (denseTurnFun L i TurnDirection.DIR_0)
        (denseTurnFun L i TurnDirection.DIR_1))
        (denseTurnFun L i TurnDirection.DIR_2))
        (denseTurnFun L i TurnDirection.DIR_3)) =
      build_identity_op ((L - 1) * 2) 1 := by
  rw [show denseTurnFun L i TurnDirection.DIR_0 = dense_turn_fun_0 L i from rfl,
    show denseTurnFun L i TurnDirection.DIR_1 = dense_turn_fun_1 L i from rfl,
    show denseTurnFun L i TurnDirection.DIR_2 = dense_turn_fun_2 L i from rfl,
    show denseTurnFun L i TurnDirection.DIR_3 = dense_turn_fun_3 L i from rfl,
    dense_turn_fun_0_eq L i hi, dense_turn_fun_1_eq L i hi,
    dense_turn_fun_2_eq L i hi, dense_turn_fun_3_eq L i hi]
  set n := (L - 1) * 2 with hn
  have ha : 2 * i < n := by omega
  have hb : 2 * i + 1 < n := by omega
  have hab : 2 * i ≠ 2 * i + 1 := by omega
  have hnea : zMask n [2 * i] ≠ zeros n := zMask_ne_zeros n _ _ ha (by simp)
  have hneb : zMask n [2 * i + 1] ≠ zeros n := zMask_ne_zeros n _ _ hb (by simp)
  have hneab : zMask n [2 * i, 2 * i + 1] ≠ zeros n :=
    zMask_ne_zeros n _ (2 * i) ha (by simp)
  have hne_ab : zMask n [2 * i] ≠ zMask n [2 * i + 1] :=
    zMask_ne n _ _ (2 * i) ha (by simp [hab])
  have hne_a_ab : zMask n [2 * i] ≠ zMask n [2 * i, 2 * i + 1] :=
    zMask_ne n _ _ (2 * i + 1) hb (by simp [hab, Ne.symm hab])
  have hne_b_ab : zMask n [2 * i + 1] ≠ zMask n [2 * i, 2 * i + 1] :=
    zMask_ne n _ _ (2 * i) ha (by simp [hab, Ne.symm hab])
  have hzz : List.replicate (zeros n).length false = zeros n := by
    rw [zeros_length]
    rfl
  have hza : List.replicate (zMask ((L - 1) * 2) [2 * i]).length false = zeros n := by
    rw [zMask_length]
    rfl
  have hzb : List.replicate (zMask ((L - 1) * 2) [2 * i + 1]).length false = zeros n := by
    rw [zMask_length]
    rfl
  have hzab : List.replicate (zMask ((L - 1) * 2) [2 * i, 2 * i + 1]).length false = zeros n := by
    rw [zMask_length]
    rfl
  norm_num [simplifyOp, simplifyTerms, addOp, build_identity_op,
    addIntoGroups, Function.comp, bead_turn_qubit, numTurnQubits,
    ConformationEncoding.qubitsPerTurn, hzz, hza, hzb, hzab,
    xorm_00 n, xorm_0m n, xorm_m0 n, xorm_self n,
    xorm_ab n _ _ hab, xorm_ba n _ _ hab, xorm_a_ab n _ _ hab,
    xorm_ab_a n _ _ hab, xorm_b_ab n _ _ hab, xorm_ab_b n _ _ hab,
    handm n, hand0 n, count_true_zeros,
    hnea, hneb, hneab, hne_ab, hne_a_ab, hne_b_ab,
    Ne.symm hnea, Ne.symm hneb, Ne.symm hneab, Ne.symm hne_ab,
    Ne.symm hne_a_ab, Ne.symm hne_b_ab]

/-- C5 evaluation: the product of the dense turn functions for the
distinct directions 0 and 1 simplifies to the zero operator. -/
theorem dense_turn_prod_zero_01 (L i : ℕ) (hi : i < L - 1) :
    simplifyOp (composeOp (denseTurnFun L i TurnDirection.DIR_0)
        (denseTurnFun L i TurnDirection.DIR_1)) =
      ⟨(L - 1) * 2, [zeroTerm ((L - 1) * 2)]⟩ := by
  rw [show denseTurnFun L i TurnDirection.DIR_0 = dense_turn_fun_0 L i from rfl,
    show denseTurnFun L i TurnDirection.DIR_1 = dense_turn_fun_1 L i from rfl,
    dense_turn_fun_0_eq L i hi, dense_turn_fun_1_eq L i hi]
  set n := (L - 1) * 2 with hn
  have ha : 2 * i < n := by omega
  have hb : 2 * i + 1 < n := by omega
  have hab : 2 * i ≠ 2 * i + 1 := by omega
  have hnea : zMask n [2 * i] ≠ zeros n := zMask_ne_zeros n _ _ ha (by simp)
  have hneb : zMask n [2 * i + 1] ≠ zeros n := zMask_ne_zeros n _ _ hb (by simp)
  have hneab : zMask n [2 * i, 2 * i + 1] ≠ zeros n :=
    zMask_ne_zeros n _ (2 * i) ha (by simp)
  have hne_ab : zMask n [2 * i] ≠ zMask n [2 * i + 1] :=
    zMask_ne n _ _ (2 * i) ha (by simp [hab])
  have hne_a_ab : zMask n [2 * i] ≠ zMask n [2 * i, 2 * i + 1] :=
    zMask_ne n _ _ (2 * i + 1) hb (by simp [hab, Ne.symm hab])
  have hne_b_ab : zMask n [2 * i + 1] ≠ zMask n [2 * i, 2 * i + 1] :=
    zMask_ne n _ _ (2 * i) ha (by simp [hab, Ne.symm hab])
  have hzz : List.replicate (zeros n).length false = zeros n := by
    rw [zeros_length]
    rfl
  have hza : List.replicate (zMask ((L - 1) * 2) [2 * i]).length false = zeros n := by
    rw [zMask_length]
    rfl
  have hzb : List.replicate (zMask ((L - 1) * 2) [2 * i + 1]).length false = zeros n := by
    rw [zMask_length]
    rfl
  have hzab : List.replicate (zMask ((L - 1) * 2) [2 * i, 2 * i + 1]).length false = zeros n := by
    rw [zMask_length]
    rfl
  norm_num [simplifyOp, simplifyTerms, composeOp, mulTerm, zeroTerm,
    addIntoGroups, Function.comp, bead_turn_qubit, numTurnQubits,
    ConformationEncoding.qubitsPerTurn, hzz, hza, hzb, hzab,
    xorm_00 n, xorm_0m n, xorm_m0 n, xorm_self n,
    xorm_ab n _ _ hab, xorm_ba n _ _ hab, xorm_a_ab n _ _ hab,
    xorm_ab_a n _ _ hab, xorm_b_ab n _ _ hab, xorm_ab_b n _ _ hab,
    handm n, hand0 n, count_true_zeros,
    hnea, hneb, hneab, hne_ab, hne_a_ab, hne_b_ab,
    Ne.symm hnea, Ne.symm hneb, Ne.symm hneab, Ne.symm hne_ab,
    Ne.symm hne_a_ab, Ne.symm hne_b_ab]

/-- C5 evaluation: the product of the dense turn functions for the
distinct directions 0 and 2 simplifies to the zero operator. -/
theorem dense_turn_prod_zero_02 (L i : ℕ) (hi : i < L - 1) :
    simplifyOp (composeOp (denseTurnFun L i TurnDirection.DIR_0)
        (denseTurnFun L i TurnDirection.DIR_2)) =
      ⟨(L - 1) * 2, [zeroTerm ((L - 1) * 2)]⟩ := by
  rw [show denseTurnFun L i TurnDirection.DIR_0 = dense_turn_fun_0 L i from rfl,
    show denseTurnFun L i TurnDirection.DIR_2 = dense_turn_fun_2 L i from rfl,
    dense_turn_fun_0_eq L i hi, dense_turn_fun_2_eq L i hi]
  set n := (L - 1) * 2 with hn
  have ha : 2 * i < n := by omega
  have hb : 2 * i + 1 < n := by omega
  have hab : 2 * i ≠ 2 * i + 1 := by omega
  have hnea : zMask n [2 * i] ≠ zeros n := zMask_ne_zeros n _ _ ha (by simp)
  have hneb : zMask n [2 * i + 1] ≠ zeros n := zMask_ne_zeros n _ _ hb (by simp)
  have hneab : zMask n [2 * i, 2 * i + 1] ≠ zeros n :=
    zMask_ne_zeros n _ (2 * i) ha (by simp)
  have hne_ab : zMask n [2 * i] ≠ zMask n [2 * i + 1] :=
    zMask_ne n _ _ (2 * i) ha (by simp [hab])
  have hne_a_ab : zMask n [2 * i] ≠ zMask n [2 * i, 2 * i + 1] :=
    zMask_ne n _ _ (2 * i + 1) hb (by simp [hab, Ne.symm hab])
  have hne_b_ab : zMask n [2 * i + 1] ≠ zMask n [2 * i, 2 * i + 1] :=
    zMask_ne n _ _ (2 * i) ha (by simp [hab, Ne.symm hab])
  have hzz : List.replicate (zeros n).length false = zeros n := by
    rw [zeros_length]
    rfl
  have hza : List.replicate (zMask ((L - 1) * 2) [2 * i]).length false = zeros n := by
    rw [zMask_length]
    rfl
  have hzb : List.replicate (zMask ((L - 1) * 2) [2 * i + 1]).length false = zeros n := by
    rw [zMask_length]
    rfl
  have hzab : List.replicate (zMask ((L - 1) * 2) [2 * i, 2 * i + 1]).length false = zeros n := by
    rw [zMask_length]
    rfl
  norm_num [simplifyOp, simplifyTerms, composeOp, mulTerm, zeroTerm,
    addIntoGroups, Function.comp, bead_turn_qubit, numTurnQubits,
    ConformationEncoding.qubitsPerTurn, hzz, hza, hzb, hzab,
    xorm_00 n, xorm_0m n, xorm_m0 n, xorm_self n,
    xorm_ab n _ _ hab, xorm_ba n _ _ hab, xorm_a_ab n _ _ hab,
    xorm_ab_a n _ _ hab, xorm_b_ab n _ _ hab, xorm_ab_b n _ _ hab,
    handm n, hand0 n, count_true_zeros,
    hnea, hneb, hneab, hne_ab, hne_a_ab, hne_b_ab,
    Ne.symm hnea, Ne.symm hneb, Ne.symm hneab, Ne.symm hne_ab,
    Ne.symm hne_a_ab, Ne.symm hne_b_ab]

/-- C5 evaluation: the product of the dense turn functions for the
distinct directions 0 and 3 simplifies to the zero operator. -/
theorem dense_turn_prod_zero_03 (L i : ℕ) (hi : i < L - 1) :
    simplifyOp (composeOp (denseTurnFun L i TurnDirection.DIR_0)
        (denseTurnFun L i TurnDirection.DIR_3)) =
      ⟨(L - 1) * 2, [zeroTerm ((L - 1) * 2)]⟩ := by
  rw [show denseTurnFun L i TurnDirection.DIR_0 = dense_turn_fun_0 L i from rfl,
    show denseTurnFun L i TurnDirection.DIR_3 = dense_turn_fun_3 L i from rfl,
    dense_turn_fun_0_eq L i hi, dense_turn_fun_3_eq L i hi]
  set n := (L - 1) * 2 with hn
  have ha : 2 * i < n := by omega
  have hb : 2 * i + 1 < n := by omega
  have hab : 2 * i ≠ 2 * i + 1 := by omega
  have hnea : zMask n [2 * i] ≠ zeros n := zMask_ne_zeros n _ _ ha (by simp)
  have hneb : zMask n [2 * i + 1] ≠ zeros n := zMask_ne_zeros n _ _ hb (by simp)
  have hneab : zMask n [2 * i, 2 * i + 1] ≠ zeros n :=
    zMask_ne_zeros n _ (2 * i) ha (by simp)
  have hne_ab : zMask n [2 * i] ≠ zMask n [2 * i + 1] :=
    zMask_ne n _ _ (2 * i) ha (by simp [hab])
  have hne_a_ab : zMask n [2 * i] ≠ zMask n [2 * i, 2 * i + 1] :=
    zMask_ne n _ _ (2 * i + 1) hb (by simp [hab, Ne.symm hab])
  have hne_b_ab : zMask n [2 * i + 1] ≠ zMask n [2 * i, 2 * i + 1] :=
    zMask_ne n _ _ (2 * i) ha (by simp [hab, Ne.symm hab])
  have hzz : List.replicate (zeros n).length false = zeros n := by
    rw [zeros_length]
    rfl
  have hza : List.replicate (zMask ((L - 1) * 2) [2 * i]).length false = zeros n := by
    rw [zMask_length]
    rfl
  have hzb : List.replicate (zMask ((L - 1) * 2) [2 * i + 1]).length false = zeros n := by
    rw [zMask_length]
    rfl
  have hzab : List.replicate (zMask ((L - 1) * 2) [2 * i, 2 * i + 1]).length false = zeros n := by
    rw [zMask_length]
    rfl
  norm_num [simplifyOp, simplifyTerms, composeOp, mulTerm, zeroTerm,
    addIntoGroups, Function.comp, bead_turn_qubit, numTurnQubits,
    ConformationEncoding.qubitsPerTurn, hzz, hza, hzb, hzab,
    xorm_00 n, xorm_0m n, xorm_m0 n, xorm_self n,
    xorm_ab n _ _ hab, xorm_ba n _ _ hab, xorm_a_ab n _ _ hab,
    xorm_ab_a n _ _ hab, xorm_b_ab n _ _ hab, xorm_ab_b n _ _ hab,
    handm n, hand0 n, count_true_zeros,
    hnea, hneb, hneab, hne_ab, hne_a_ab, hne_b_ab,
    Ne.symm hnea, Ne.symm hneb, Ne.symm hneab, Ne.symm hne_ab,
    Ne.symm hne_a_ab, Ne.symm hne_b_ab]

/-- C5 evaluation: the product of the dense turn functions for the
distinct directions 1 and 0 simplifies to the zero operator. -/
theorem dense_turn_prod_zero_10 (L i : ℕ) (hi : i < L - 1) :
    simplifyOp (composeOp (denseTurnFun L i TurnDirection.DIR_1)
        (denseTurnFun L i TurnDirection.DIR_0)) =
      ⟨(L - 1) * 2, [zeroTerm ((L - 1) * 2)]⟩ := by
  rw [show denseTurnFun L i TurnDirection.DIR_1 = dense_turn_fun_1 L i from rfl,
    show denseTurnFun L i TurnDirection.DIR_0 = dense_turn_fun_0 L i from rfl,
    dense_turn_fun_1_eq L i hi, dense_turn_fun_0_eq L i hi]
  set n := (L - 1) * 2 with hn
  have ha : 2 * i < n := by omega
  have hb : 2 * i + 1 < n := by omega
  have hab : 2 * i ≠ 2 * i + 1 := by omega
  have hnea : zMask n [2 * i] ≠ zeros n := zMask_ne_zeros n _ _ ha (by simp)
  have hneb : zMask n [2 * i + 1] ≠ zeros n := zMask_ne_zeros n _ _ hb (by simp)
  have hneab : zMask n [2 * i, 2 * i + 1] ≠ zeros n :=
    zMask_ne_zeros n _ (2 * i) ha (by simp)
  have hne_ab : zMask n [2 * i] ≠ zMask n [2 * i + 1] :=
    zMask_ne n _ _ (2 * i) ha (by simp [hab])
  have hne_a_ab : zMask n [2 * i] ≠ zMask n [2 * i, 2 * i + 1] :=
    zMask_ne n _ _ (2 * i + 1) hb (by simp [hab, Ne.symm hab])
  have hne_b_ab : zMask n [2 * i + 1] ≠ zMask n [2 * i, 2 * i + 1] :=
    zMask_ne n _ _ (2 * i) ha (by simp [hab, Ne.symm hab])
  have hzz : List.replicate (zeros n).length false = zeros n := by
    rw [zeros_length]
    rfl
  have hza : List.replicate (zMask ((L - 1) * 2) [2 * i]).length false = zeros n := by
    rw [zMask_length]
    rfl
  have hzb : List.replicate (zMask ((L - 1) * 2) [2 * i + 1]).length false = zeros n := by
    rw [zMask_length]
    rfl
  have hzab : List.replicate (zMask ((L - 1) * 2) [2 * i, 2 * i + 1]).length false = zeros n := by
    rw [zMask_length]
    rfl
  norm_num [simplifyOp, simplifyTerms, composeOp, mulTerm, zeroTerm,
    addIntoGroups, Function.comp, bead_turn_qubit, numTurnQubits,
    ConformationEncoding.qubitsPerTurn, hzz, hza, hzb, hzab,
    xorm_00 n, xorm_0m n, xorm_m0 n, xorm_self n,
    xorm_ab n _ _ hab, xorm_ba n _ _ hab, xorm_a_ab n _ _ hab,
    xorm_ab_a n _ _ hab, xorm_b_ab n _ _ hab, xorm_ab_b n _ _ hab,
    handm n, hand0 n, count_true_zeros,
    hnea, hneb, hneab, hne_ab, hne_a_ab, hne_b_ab,
    Ne.symm hnea, Ne.symm hneb, Ne.symm hneab, Ne.symm hne_ab,
    Ne.symm hne_a_ab, Ne.symm hne_b_ab]

/-- C5 evaluation: the product of the dense turn functions for the
distinct directions 1 and 2 simplifies to the zero operator. -/
theorem dense_turn_prod_zero_12 (L i : ℕ) (hi : i < L - 1) :
    simplifyOp (composeOp (denseTurnFun L i TurnDirection.DIR_1)
        (denseTurnFun L i TurnDirection.DIR_2)) =
      ⟨(L - 1) * 2, [zeroTerm ((L - 1) * 2)]⟩ := by
  rw [show denseTurnFun L i TurnDirection.DIR_1 = dense_turn_fun_1 L i from rfl,
    show denseTurnFun L i TurnDirection.DIR_2 = dense_turn_fun_2 L i from rfl,
    dense_turn_fun_1_eq L i hi, dense_turn_fun_2_eq L i hi]
  set n := (L - 1) * 2 with hn
  have ha : 2 * i < n := by omega
  have hb : 2 * i + 1 < n := by omega
  have hab : 2 * i ≠ 2 * i + 1 := by omega
  have hnea : zMask n [2 * i] ≠ zeros n := zMask_ne_zeros n _ _ ha (by simp)
  have hneb : zMask n [2 * i + 1] ≠ zeros n := zMask_ne_zeros n _ _ hb (by simp)
  have hneab : zMask n [2 * i, 2 * i + 1] ≠ zeros n :=
    zMask_ne_zeros n _ (2 * i) ha (by simp)
  have hne_ab : zMask n [2 * i] ≠ zMask n [2 * i + 1] :=
    zMask_ne n _ _ (2 * i) ha (by simp [hab])
  have hne_a_ab : zMask n [2 * i] ≠ zMask n [2 * i, 2 * i + 1] :=
    zMask_ne n _ _ (2 * i + 1) hb (by simp [hab, Ne.symm hab])
  have hne_b_ab : zMask n [2 * i + 1] ≠ zMask n [2 * i, 2 * i + 1] :=
    zMask_ne n _ _ (2 * i) ha (by simp [hab, Ne.symm hab])
  have hzz : List.replicate (zeros n).length false = zeros n := by
    rw [zeros_length]
    rfl
  have hza : List.replicate (zMask ((L - 1) * 2) [2 * i]).length false = zeros n := by
    rw [zMask_length]
    rfl
  have hzb : List.replicate (zMask ((L - 1) * 2) [2 * i + 1]).length false = zeros n := by
    rw [zMask_length]
    rfl
  have hzab : List.replicate (zMask ((L - 1) * 2) [2 * i, 2 * i + 1]).length false = zeros n := by
    rw [zMask_length]
    rfl
  norm_num [simplifyOp, simplifyTerms, composeOp, mulTerm, zeroTerm,
    addIntoGroups, Function.comp, bead_turn_qubit, numTurnQubits,
    ConformationEncoding.qubitsPerTurn, hzz, hza, hzb, hzab,
    xorm_00 n, xorm_0m n, xorm_m0 n, xorm_self n,
    xorm_ab n _ _ hab, xorm_ba n _ _ hab, xorm_a_ab n _ _ hab,
    xorm_ab_a n _ _ hab, xorm_b_ab n _ _ hab, xorm_ab_b n _ _ hab,
    handm n, hand0 n, count_true_zeros,
    hnea, hneb, hneab, hne_ab, hne_a_ab, hne_b_ab,
    Ne.symm hnea, Ne.symm hneb, Ne.symm hneab, Ne.symm hne_ab,
    Ne.symm hne_a_ab, Ne.symm hne_b_ab]

/-- C5 evaluation: the product of the dense turn functions for the
distinct directions 1 and 3 simplifies to the zero operator. -/
theorem dense_turn_prod_zero_13 (L i : ℕ) (hi : i < L - 1) :
    simplifyOp (composeOp (denseTurnFun L i TurnDirection.DIR_1)
        (denseTurnFun L i TurnDirection.DIR_3)) =
      ⟨(L - 1) * 2, [zeroTerm ((L - 1) * 2)]⟩ := by
  rw [show denseTurnFun L i TurnDirection.DIR_1 = dense_turn_fun_1 L i from rfl,
    show denseTurnFun L i TurnDirection.DIR_3 = dense_turn_fun_3 L i from rfl,
    dense_turn_fun_1_eq L i hi, dense_turn_fun_3_eq L i hi]
  set n := (L - 1) * 2 with hn
  have ha : 2 * i < n := by omega
  have hb : 2 * i + 1 < n := by omega
  have hab : 2 * i ≠ 2 * i + 1 := by omega
  have hnea : zMask n [2 * i] ≠ zeros n := zMask_ne_zeros n _ _ ha (by simp)
  have hneb : zMask n [2 * i + 1] ≠ zeros n := zMask_ne_zeros n _ _ hb (by simp)
  have hneab : zMask n [2 * i, 2 * i + 1] ≠ zeros n :=
    zMask_ne_zeros n _ (2 * i) ha (by simp)
  have hne_ab : zMask n [2 * i] ≠ zMask n [2 * i + 1] :=
    zMask_ne n _ _ (2 * i) ha (by simp [hab])
  have hne_a_ab : zMask n [2 * i] ≠ zMask n [2 * i, 2 * i + 1] :=
    zMask_ne n _ _ (2 * i + 1) hb (by simp [hab, Ne.symm hab])
  have hne_b_ab : zMask n [2 * i + 1] ≠ zMask n [2 * i, 2 * i + 1] :=
    zMask_ne n _ _ (2 * i) ha (by simp [hab, Ne.symm hab])
  have hzz : List.replicate (zeros n).length false = zeros n := by
    rw [zeros_length]
    rfl
  have hza : List.replicate (zMask ((L - 1) * 2) [2 * i]).length false = zeros n := by
    rw [zMask_length]
    rfl
  have hzb : List.replicate (zMask ((L - 1) * 2) [2 * i + 1]).length false = zeros n := by
    rw [zMask_length]
    rfl
  have hzab : List.replicate (zMask ((L - 1) * 2) [2 * i, 2 * i + 1]).length false = zeros n := by
    rw [zMask_length]
    rfl
  norm_num [simplifyOp, simplifyTerms, composeOp, mulTerm, zeroTerm,
    addIntoGroups, Function.comp, bead_turn_qubit, numTurnQubits,
    ConformationEncoding.qubitsPerTurn, hzz, hza, hzb, hzab,
    xorm_00 n, xorm_0m n, xorm_m0 n, xorm_self n,
    xorm_ab n _ _ hab, xorm_ba n _ _ hab, xorm_a_ab n _ _ hab,
    xorm_ab_a n _ _ hab, xorm_b_ab n _ _ hab, xorm_ab_b n _ _ hab,
    handm n, hand0 n, count_true_zeros,
    hnea, hneb, hneab, hne_ab, hne_a_ab, hne_b_ab,
    Ne.symm hnea, Ne.symm hneb, Ne.symm hneab, Ne.symm hne_ab,
    Ne.symm hne_a_ab, Ne.symm hne_b_ab]

/-- C5 evaluation: the product of the dense turn functions for the
distinct directions 2 and 0 simplifies to the zero operator. -/
theorem dense_turn_prod_zero_20 (L i : ℕ) (hi : i < L - 1) :
    simplifyOp (composeOp (denseTurnFun L i TurnDirection.DIR_2)
        (denseTurnFun L i TurnDirection.DIR_0)) =
      ⟨(L - 1) * 2, [zeroTerm ((L - 1) * 2)]⟩ := by
  rw [show denseTurnFun L i TurnDirection.DIR_2 = dense_turn_fun_2 L i from rfl,
    show denseTurnFun L i TurnDirection.DIR_0 = dense_turn_fun_0 L i from rfl,
    dense_turn_fun_2_eq L i hi, dense_turn_fun_0_eq L i hi]
  set n := (L - 1) * 2 with hn
  have ha : 2 * i < n := by omega
  have hb : 2 * i + 1 < n := by omega
  have hab : 2 * i ≠ 2 * i + 1 := by omega
  have hnea : zMask n [2 * i] ≠ zeros n := zMask_ne_zeros n _ _ ha (by simp)
  have hneb : zMask n [2 * i + 1] ≠ zeros n := zMask_ne_zeros n _ _ hb (by simp)
  have hneab : zMask n [2 * i, 2 * i + 1] ≠ zeros n :=
    zMask_ne_zeros n _ (2 * i) ha (by simp)
  have hne_ab : zMask n [2 * i] ≠ zMask n [2 * i + 1] :=
    zMask_ne n _ _ (2 * i) ha (by simp [hab])
  have hne_a_ab : zMask n [2 * i] ≠ zMask n [2 * i, 2 * i + 1] :=
    zMask_ne n _ _ (2 * i + 1) hb (by simp [hab, Ne.symm hab])
  have hne_b_ab : zMask n [2 * i + 1] ≠ zMask n [2 * i, 2 * i + 1] :=
    zMask_ne n _ _ (2 * i) ha (by simp [hab, Ne.symm hab])
  have hzz : List.replicate (zeros n).length false = zeros n := by
    rw [zeros_length]
    rfl
  have hza : List.replicate (zMask ((L - 1) * 2) [2 * i]).length false = zeros n := by
    rw [zMask_length]
    rfl
  have hzb : List.replicate (zMask ((L - 1) * 2) [2 * i + 1]).length false = zeros n := by
    rw [zMask_length]
    rfl
  have hzab : List.replicate (zMask ((L - 1) * 2) [2 * i, 2 * i + 1]).length false = zeros n := by
    rw [zMask_length]
    rfl
  norm_num [simplifyOp, simplifyTerms, composeOp, mulTerm, zeroTerm,
    addIntoGroups, Function.comp, bead_turn_qubit, numTurnQubits,
    ConformationEncoding.qubitsPerTurn, hzz, hza, hzb, hzab,
    xorm_00 n, xorm_0m n, xorm_m0 n, xorm_self n,
    xorm_ab n _ _ hab, xorm_ba n _ _ hab, xorm_a_ab n _ _ hab,
    xorm_ab_a n _ _ hab, xorm_b_ab n _ _ hab, xorm_ab_b n _ _ hab,
    handm n, hand0 n, count_true_zeros,
    hnea, hneb, hneab, hne_ab, hne_a_ab, hne_b_ab,
    Ne.symm hnea, Ne.symm hneb, Ne.symm hneab, Ne.symm hne_ab,
    Ne.symm hne_a_ab, Ne.symm hne_b_ab]

/-- C5 evaluation: the product of the dense turn functions for the
distinct directions 2 and 1 simplifies to the zero operator. -/
theorem dense_turn_prod_zero_21 (L i : ℕ) (hi : i < L - 1) :
    simplifyOp (composeOp (denseTurnFun L i TurnDirection.DIR_2)
        (denseTurnFun L i TurnDirection.DIR_1)) =
      ⟨(L - 1) * 2, [zeroTerm ((L - 1) * 2)]⟩ := by
  rw [show denseTurnFun L i TurnDirection.DIR_2 = dense_turn_fun_2 L i from rfl,
    show denseTurnFun L i TurnDirection.DIR_1 = dense_turn_fun_1 L i from rfl,
    dense_turn_fun_2_eq L i hi, dense_turn_fun_1_eq L i hi]
  set n := (L - 1) * 2 with hn
  have ha : 2 * i < n := by omega
  have hb : 2 * i + 1 < n := by omega
  have hab : 2 * i ≠ 2 * i + 1 := by omega
  have hnea : zMask n [2 * i] ≠ zeros n := zMask_ne_zeros n _ _ ha (by simp)
  have hneb : zMask n [2 * i + 1] ≠ zeros n := zMask_ne_zeros n _ _ hb (by simp)
  have hneab : zMask n [2 * i, 2 * i + 1] ≠ zeros n :=
    zMask_ne_zeros n _ (2 * i) ha (by simp)
  have hne_ab : zMask n [2 * i] ≠ zMask n [2 * i + 1] :=
    zMask_ne n _ _ (2 * i) ha (by simp [hab])
  have hne_a_ab : zMask n [2 * i] ≠ zMask n [2 * i, 2 * i + 1] :=
    zMask_ne n _ _ (2 * i + 1) hb (by simp [hab, Ne.symm hab])
  have hne_b_ab : zMask n [2 * i + 1] ≠ zMask n [2 * i, 2 * i + 1] :=
    zMask_ne n _ _ (2 * i) ha (by simp [hab, Ne.symm hab])
  have hzz : List.replicate (zeros n).length false = zeros n := by
    rw [zeros_length]
    rfl
  have hza : List.replicate (zMask ((L - 1) * 2) [2 * i]).length false = zeros n := by
    rw [zMask_length]
    rfl
  have hzb : List.replicate (zMask ((L - 1) * 2) [2 * i + 1]).length false = zeros n := by
    rw [zMask_length]
    rfl
  have hzab : List.replicate (zMask ((L - 1) * 2) [2 * i, 2 * i + 1]).length false = zeros n := by
    rw [zMask_length]
    rfl
  norm_num [simplifyOp, simplifyTerms, composeOp, mulTerm, zeroTerm,
    addIntoGroups, Function.comp, bead_turn_qubit, numTurnQubits,
    ConformationEncoding.qubitsPerTurn, hzz, hza, hzb, hzab,
    xorm_00 n, xorm_0m n, xorm_m0 n, xorm_self n,
    xorm_ab n _ _ hab, xorm_ba n _ _ hab, xorm_a_ab n _ _ hab,
    xorm_ab_a n _ _ hab, xorm_b_ab n _ _ hab, xorm_ab_b n _ _ hab,
    handm n, hand0 n, count_true_zeros,
    hnea, hneb, hneab, hne_ab, hne_a_ab, hne_b_ab,
    Ne.symm hnea, Ne.symm hneb, Ne.symm hneab, Ne.symm hne_ab,
    Ne.symm hne_a_ab, Ne.symm hne_b_ab]

/-- C5 evaluation: the product of the dense turn functions for the
distinct directions 2 and 3 simplifies to the zero operator. -/
theorem dense_turn_prod_zero_23 (L i : ℕ) (hi : i < L - 1) :
    simplifyOp (composeOp (denseTurnFun L i TurnDirection.DIR_2)
        (denseTurnFun L i TurnDirection.DIR_3)) =
      ⟨(L - 1) * 2, [zeroTerm ((L - 1) * 2)]⟩ := by
  rw [show denseTurnFun L i TurnDirection.DIR_2 = dense_turn_fun_2 L i from rfl,
    show denseTurnFun L i TurnDirection.DIR_3 = dense_turn_fun_3 L i from rfl,
    dense_turn_fun_2_eq L i hi, dense_turn_fun_3_eq L i hi]
  set n := (L - 1) * 2 with hn
  have ha : 2 * i < n := by omega
  have hb : 2 * i + 1 < n := by omega
  have hab : 2 * i ≠ 2 * i + 1 := by omega
  have hnea : zMask n [2 * i] ≠ zeros n := zMask_ne_zeros n _ _ ha (by simp)
  have hneb : zMask n [2 * i + 1] ≠ zeros n := zMask_ne_zeros n _ _ hb (by simp)
  have hneab : zMask n [2 * i, 2 * i + 1] ≠ zeros n :=
    zMask_ne_zeros n _ (2 * i) ha (by simp)
  have hne_ab : zMask n [2 * i] ≠ zMask n [2 * i + 1] :=
    zMask_ne n _ _ (2 * i) ha (by simp [hab])
  have hne_a_ab : zMask n [2 * i] ≠ zMask n [2 * i, 2 * i + 1] :=
    zMask_ne n _ _ (2 * i + 1) hb (by simp [hab, Ne.symm hab])
  have hne_b_ab : zMask n [2 * i + 1] ≠ zMask n [2 * i, 2 * i + 1] :=
    zMask_ne n _ _ (2 * i) ha (by simp [hab, Ne.symm hab])
  have hzz : List.replicate (zeros n).length false = zeros n := by
    rw [zeros_length]
    rfl
  have hza : List.replicate (zMask ((L - 1) * 2) [2 * i]).length false = zeros n := by
    rw [zMask_length]
    rfl
  have hzb : List.replicate (zMask ((L - 1) * 2) [2 * i + 1]).length false = zeros n := by
    rw [zMask_length]
    rfl
  have hzab : List.replicate (zMask ((L - 1) * 2) [2 * i, 2 * i + 1]).length false = zeros n := by
    rw [zMask_length]
    rfl
  norm_num [simplifyOp, simplifyTerms, composeOp, mulTerm, zeroTerm,
    addIntoGroups, Function.comp, bead_turn_qubit, numTurnQubits,
    ConformationEncoding.qubitsPerTurn, hzz, hza, hzb, hzab,
    xorm_00 n, xorm_0m n, xorm_m0 n, xorm_self n,
    xorm_ab n _ _ hab, xorm_ba n _ _ hab, xorm_a_ab n _ _ hab,
    xorm_ab_a n _ _ hab, xorm_b_ab n _ _ hab, xorm_ab_b n _ _ hab,
    handm n, hand0 n, count_true_zeros,
    hnea, hneb, hneab, hne_ab, hne_a_ab, hne_b_ab,
    Ne.symm hnea, Ne.symm hneb, Ne.symm hneab, Ne.symm hne_ab,
    Ne.symm hne_a_ab, Ne.symm hne_b_ab]

/-- C5 evaluation: the product of the dense turn functions for the
distinct directions 3 and 0 simplifies to the zero operator. -/
theorem dense_turn_prod_zero_30 (L i : ℕ) (hi : i < L - 1) :
    simplifyOp (composeOp (denseTurnFun L i TurnDirection.DIR_3)
        (denseTurnFun L i TurnDirection.DIR_0)) =
      ⟨(L - 1) * 2, [zeroTerm ((L - 1) * 2)]⟩ := by
  rw [show denseTurnFun L i TurnDirection.DIR_3 = dense_turn_fun_3 L i from rfl,
    show denseTurnFun L i TurnDirection.DIR_0 = dense_turn_fun_0 L i from rfl,
    dense_turn_fun_3_eq L i hi, dense_turn_fun_0_eq L i hi]
  set n := (L - 1) * 2 with hn
  have ha : 2 * i < n := by omega
  have hb : 2 * i + 1 < n := by omega
  have hab : 2 * i ≠ 2 * i + 1 := by omega
  have hnea : zMask n [2 * i] ≠ zeros n := zMask_ne_zeros n _ _ ha (by simp)
  have hneb : zMask n [2 * i + 1] ≠ zeros n := zMask_ne_zeros n _ _ hb (by simp)
  have hneab : zMask n [2 * i, 2 * i + 1] ≠ zeros n :=
    zMask_ne_zeros n _ (2 * i) ha (by simp)
  have hne_ab : zMask n [2 * i] ≠ zMask n [2 * i + 1] :=
    zMask_ne n _ _ (2 * i) ha (by simp [hab])
  have hne_a_ab : zMask n [2 * i] ≠ zMask n [2 * i, 2 * i + 1] :=
    zMask_ne n _ _ (2 * i + 1) hb (by simp [hab, Ne.symm hab])
  have hne_b_ab : zMask n [2 * i + 1] ≠ zMask n [2 * i, 2 * i + 1] :=
    zMask_ne n _ _ (2 * i) ha (by simp [hab, Ne.symm hab])
  have hzz : List.replicate (zeros n).length false = zeros n := by
    rw [zeros_length]
    rfl
  have hza : List.replicate (zMask ((L - 1) * 2) [2 * i]).length false = zeros n := by
    rw [zMask_length]
    rfl
  have hzb : List.replicate (zMask ((L - 1) * 2) [2 * i + 1]).length false = zeros n := by
    rw [zMask_length]
    rfl
  have hzab : List.replicate (zMask ((L - 1) * 2) [2 * i, 2 * i + 1]).length false = zeros n := by
    rw [zMask_length]
    rfl
  norm_num [simplifyOp, simplifyTerms, composeOp, mulTerm, zeroTerm,
    addIntoGroups, Function.comp, bead_turn_qubit, numTurnQubits,
    ConformationEncoding.qubitsPerTurn, hzz, hza, hzb, hzab,
    xorm_00 n, xorm_0m n, xorm_m0 n, xorm_self n,
    xorm_ab n _ _ hab, xorm_ba n _ _ hab, xorm_a_ab n _ _ hab,
    xorm_ab_a n _ _ hab, xorm_b_ab n _ _ hab, xorm_ab_b n _ _ hab,
    handm n, hand0 n, count_true_zeros,
    hnea, hneb, hneab, hne_ab, hne_a_ab, hne_b_ab,
    Ne.symm hnea, Ne.symm hneb, Ne.symm hneab, Ne.symm hne_ab,
    Ne.symm hne_a_ab, Ne.symm hne_b_ab]

/-- C5 evaluation: the product of the dense turn functions for the
distinct directions 3 and 1 simplifies to the zero operator. -/
theorem dense_turn_prod_zero_31 (L i : ℕ) (hi : i < L - 1) :
    simplifyOp (composeOp (denseTurnFun L i TurnDirection.DIR_3)
        (denseTurnFun L i TurnDirection.DIR_1)) =
      ⟨(L - 1) * 2, [zeroTerm ((L - 1) * 2)]⟩ := by
  rw [show denseTurnFun L i TurnDirection.DIR_3 = dense_turn_fun_3 L i from rfl,
    show denseTurnFun L i TurnDirection.DIR_1 = dense_turn_fun_1 L i from rfl,
    dense_turn_fun_3_eq L i hi, dense_turn_fun_1_eq L i hi]
  set n := (L - 1) * 2 with hn
  have ha : 2 * i < n := by omega
  have hb : 2 * i + 1 < n := by omega
  have hab : 2 * i ≠ 2 * i + 1 := by omega
  have hnea : zMask n [2 * i] ≠ zeros n := zMask_ne_zeros n _ _ ha (by simp)
  have hneb : zMask n [2 * i + 1] ≠ zeros n := zMask_ne_zeros n _ _ hb (by simp)
  have hneab : zMask n [2 * i, 2 * i + 1] ≠ zeros n :=
    zMask_ne_zeros n _ (2 * i) ha (by simp)
  have hne_ab : zMask n [2 * i] ≠ zMask n [2 * i + 1] :=
    zMask_ne n _ _ (2 * i) ha (by simp [hab])
  have hne_a_ab : zMask n [2 * i] ≠ zMask n [2 * i, 2 * i + 1] :=
    zMask_ne n _ _ (2 * i + 1) hb (by simp [hab, Ne.symm hab])
  have hne_b_ab : zMask n [2 * i + 1] ≠ zMask n [2 * i, 2 * i + 1] :=
    zMask_ne n _ _ (2 * i) ha (by simp [hab, Ne.symm hab])
  have hzz : List.replicate (zeros n).length false = zeros n := by
    rw [zeros_length]
    rfl
  have hza : List.replicate (zMask ((L - 1) * 2) [2 * i]).length false = zeros n := by
    rw [zMask_length]
    rfl
  have hzb : List.replicate (zMask ((L - 1) * 2) [2 * i + 1]).length false = zeros n := by
    rw [zMask_length]
    rfl
  have hzab : List.replicate (zMask ((L - 1) * 2) [2 * i, 2 * i + 1]).length false = zeros n := by
    rw [zMask_length]
    rfl
  norm_num [simplifyOp, simplifyTerms, composeOp, mulTerm, zeroTerm,
    addIntoGroups, Function.comp, bead_turn_qubit, numTurnQubits,
    ConformationEncoding.qubitsPerTurn, hzz, hza, hzb, hzab,
    xorm_00 n, xorm_0m n, xorm_m0 n, xorm_self n,
    xorm_ab n _ _ hab, xorm_ba n _ _ hab, xorm_a_ab n _ _ hab,
    xorm_ab_a n _ _ hab, xorm_b_ab n _ _ hab, xorm_ab_b n _ _ hab,
    handm n, hand0 n, count_true_zeros,
    hnea, hneb, hneab, hne_ab, hne_a_ab, hne_b_ab,
    Ne.symm hnea, Ne.symm hneb, Ne.symm hneab, Ne.symm hne_ab,
    Ne.symm hne_a_ab, Ne.symm hne_b_ab]

/-- C5 evaluation: the product of the dense turn functions for the
distinct directions 3 and 2 simplifies to the zero operator. -/
theorem dense_turn_prod_zero_32 (L i : ℕ) (hi : i < L - 1) :
    simplifyOp (composeOp (denseTurnFun L i TurnDirection.DIR_3)
        (denseTurnFun L i TurnDirection.DIR_2)) =
      ⟨(L - 1) * 2, [zeroTerm ((L - 1) * 2)]⟩ := by
  rw [show denseTurnFun L i TurnDirection.DIR_3 = dense_turn_fun_3 L i from rfl,
    show denseTurnFun L i TurnDirection.DIR_2 = dense_turn_fun_2 L i from rfl,
    dense_turn_fun_3_eq L i hi, dense_turn_fun_2_eq L i hi]
  set n := (L - 1) * 2 with hn
  have ha : 2 * i < n := by omega
  have hb : 2 * i + 1 < n := by omega
  have hab : 2 * i ≠ 2 * i + 1 := by omega
  have hnea : zMask n [2 * i] ≠ zeros n := zMask_ne_zeros n _ _ ha (by simp)
  have hneb : zMask n [2 * i + 1] ≠ zeros n := zMask_ne_zeros n _ _ hb (by simp)
  have hneab : zMask n [2 * i, 2 * i + 1] ≠ zeros n :=
    zMask_ne_zeros n _ (2 * i) ha (by simp)
  have hne_ab : zMask n [2 * i] ≠ zMask n [2 * i + 1] :=
    zMask_ne n _ _ (2 * i) ha (by simp [hab])
  have hne_a_ab : zMask n [2 * i] ≠ zMask n [2 * i, 2 * i + 1] :=
    zMask_ne n _ _ (2 * i + 1) hb (by simp [hab, Ne.symm hab])
  have hne_b_ab : zMask n [2 * i + 1] ≠ zMask n [2 * i, 2 * i + 1] :=
    zMask_ne n _ _ (2 * i) ha (by simp [hab, Ne.symm hab])
  have hzz : List.replicate (zeros n).length false = zeros n := by
    rw [zeros_length]
    rfl
  have hza : List.replicate (zMask ((L - 1) * 2) [2 * i]).length false = zeros n := by
    rw [zMask_length]
    rfl
  have hzb : List.replicate (zMask ((L - 1) * 2) [2 * i + 1]).length false = zeros n := by
    rw [zMask_length]
    rfl
  have hzab : List.replicate (zMask ((L - 1) * 2) [2 * i, 2 * i + 1]).length false = zeros n := by
    rw [zMask_length]
    rfl
  norm_num [simplifyOp, simplifyTerms, composeOp, mulTerm, zeroTerm,
    addIntoGroups, Function.comp, bead_turn_qubit, numTurnQubits,
    ConformationEncoding.qubitsPerTurn, hzz, hza, hzb, hzab,
    xorm_00 n, xorm_0m n, xorm_m0 n, xorm_self n,
    xorm_ab n _ _ hab, xorm_ba n _ _ hab, xorm_a_ab n _ _ hab,
    xorm_ab_a n _ _ hab, xorm_b_ab n _ _ hab, xorm_ab_b n _ _ hab,
    handm n, hand0 n, count_true_zeros,
    hnea, hneb, hneab, hne_ab, hne_a_ab, hne_b_ab,
    Ne.symm hnea, Ne.symm hneb, Ne.symm hneab, Ne.symm hne_ab,
    Ne.symm hne_a_ab, Ne.symm hne_b_ab]

/-- C5, amended.  Under the dense encoding (the configured
`CONFORMATION_ENCODING`), for every non-terminal main bead the four turn
functions t0..t3 satisfy t0 + t1 + t2 + t3 = identity on the turn register
after simplification, and the composition of any two distinct turn
functions simplifies to the zero operator (qiskit's canonical zero: a
single identity term with coefficient 0).  Under the sparse encoding this
fails (see the counterexample), so the claim holds for the dense encoding
only. -/
theorem c5_dense_partition_of_unity (L i : ℕ) (hi : i < L - 1) :
    (simplifyOp (addOp (addOp (addOp
        (denseTurnFun L i TurnDirection.DIR_0)
        (denseTurnFun L i TurnDirection.DIR_1))
        (denseTurnFun L i TurnDirection.DIR_2))
        (denseTurnFun L i TurnDirection.DIR_3)) =
      build_identity_op (numTurnQubits ConformationEncoding.dense L) 1) ∧
    (∀ a b : TurnDirection, a ≠ b →
      simplifyOp (composeOp (denseTurnFun L i a) (denseTurnFun L i b)) =
        ⟨numTurnQubits ConformationEncoding.dense L,
         [zeroTerm (numTurnQubits ConformationEncoding.dense L)]⟩) := by
  have hq : numTurnQubits ConformationEncoding.dense L = (L - 1) * 2 := rfl
  rw [hq]
  constructor
  · exact dense_turn_sum_eq L i hi
  · intro a b hab
    cases a <;> cases b
    case DIR_0.DIR_0 => exact absurd rfl hab
    case DIR_1.DIR_1 => exact absurd rfl hab
    case DIR_2.DIR_2 => exact absurd rfl hab
    case DIR_3.DIR_3 => exact absurd rfl hab
    case DIR_0.DIR_1 => exact dense_turn_prod_zero_01 L i hi
    case DIR_0.DIR_2 => exact dense_turn_prod_zero_02 L i hi
    case DIR_0.DIR_3 => exact dense_turn_prod_zero_03 L i hi
    case DIR_1.DIR_0 => exact dense_turn_prod_zero_10 L i hi
    case DIR_1.DIR_2 => exact dense_turn_prod_zero_12 L i hi
    case DIR_1.DIR_3 => exact dense_turn_prod_zero_13 L i hi
    case DIR_2.DIR_0 => exact dense_turn_prod_zero_20 L i hi
    case DIR_2.DIR_1 => exact dense_turn_prod_zero_21 L i hi
    case DIR_2.DIR_3 => exact dense_turn_prod_zero_23 L i hi
    case DIR_3.DIR_0 => exact dense_turn_prod_zero_30 L i hi
    case DIR_3.DIR_1 => exact dense_turn_prod_zero_31 L i hi
    case DIR_3.DIR_2 => exact dense_turn_prod_zero_32 L i hi

/-- C5, witness: the dense partition of unity at the first bead of a
five-bead chain. -/
theorem c5_witness :
    (0 : ℕ) < 5 - 1 ∧
    ((simplifyOp (addOp (addOp (addOp
        (denseTurnFun 5 0 TurnDirection.DIR_0)
        (denseTurnFun 5 0 TurnDirection.DIR_1))
        (denseTurnFun 5 0 TurnDirection.DIR_2))
        (denseTurnFun 5 0 TurnDirection.DIR_3)) =
      build_identity_op (numTurnQubits ConformationEncoding.dense 5) 1) ∧
    (∀ a b : TurnDirection, a ≠ b →
      simplifyOp (composeOp (denseTurnFun 5 0 a) (denseTurnFun 5 0 b)) =
        ⟨numTurnQubits ConformationEncoding.dense 5,
         [zeroTerm (numTurnQubits ConformationEncoding.dense 5)]⟩)) :=
  ⟨by decide, c5_dense_partition_of_unity 5 0 (by decide)⟩

end QPF
